import Mathlib

/-!
Verification of the IRACify preprocessing and postprocessing pipeline
(src/ai_irac_summarizer_v3.py).

Texts are modelled as lists of characters.  Python regular expressions are
embedded as executable scanners that mirror the leftmost, greedy,
backtracking semantics of the specific patterns used by the source (the
relevant backtracking cases are worked out in comments next to each
scanner).  Character classes follow Python semantics restricted to the
code points the source manipulates; the regex word class is modelled as
ASCII alphanumerics plus the underscore.  Python floats in the scoring
function are modelled as exact integer tenths; every constant in the
source is a multiple of 0.1 and no proved statement depends on
floating-point rounding.
-/

namespace IRACify

/-- Texts are lists of characters. -/
abbrev Str := List Char

/-- Conversion from Lean string literals. -/
def str (s : String) : Str := s.data

/-- Python whitespace (the class matched by the regex token for whitespace
and by the argument-free strip method). -/
def isPySpace (c : Char) : Bool :=
  c == ' ' || c == '\t' || c == '\n' || c == '\r' ||
  c == Char.ofNat 0x0b || c == Char.ofNat 0x0c ||
  c == Char.ofNat 0x1c || c == Char.ofNat 0x1d ||
  c == Char.ofNat 0x1e || c == Char.ofNat 0x1f ||
  c == Char.ofNat 0x85 || c == Char.ofNat 0xa0 ||
  c == Char.ofNat 0x1680 ||
  (0x2000 ≤ c.toNat && c.toNat ≤ 0x200a) ||
  c == Char.ofNat 0x2028 || c == Char.ofNat 0x2029 ||
  c == Char.ofNat 0x202f || c == Char.ofNat 0x205f ||
  c == Char.ofNat 0x3000

/-- Word character of the regex word-boundary token, ASCII model. -/
def isWordChar (c : Char) : Bool := c.isAlphanum || c == '_'

/-- Python strip with no arguments: drop leading and trailing whitespace. -/
def pyStrip (cs : Str) : Str :=
  ((cs.dropWhile isPySpace).reverse.dropWhile isPySpace).reverse

/-! ## normalize_text -/

/-- Replace each CRLF pair by a single LF (first replace call of
normalize_text). -/
def replCRLF : Str → Str
  | [] => []
  | [c] => [c]
  | c :: d :: rest =>
    if c = '\r' ∧ d = '\n' then '\n' :: replCRLF rest
    else c :: replCRLF (d :: rest)

/-- Replace each remaining CR by LF (second replace call). -/
def replCR (cs : Str) : Str := cs.map (fun c => if c == '\r' then '\n' else c)

/-- Tab or no-break space, the class of the first substitution. -/
def isTabNbsp (c : Char) : Bool := c == '\t' || c == Char.ofNat 0xa0

/-- Collapse every maximal run of tabs and no-break spaces to one space.
The flag records whether the previous character belonged to such a run, so
each run contributes exactly one space, as the one-or-more quantifier of
the source pattern does. -/
def collapseTabNbspGo : Bool → Str → Str
  | _, [] => []
  | prevTab, c :: rest =>
    if isTabNbsp c then
      (if prevTab then collapseTabNbspGo true rest
       else ' ' :: collapseTabNbspGo true rest)
    else c :: collapseTabNbspGo false rest

def collapseTabNbsp (cs : Str) : Str := collapseTabNbspGo false cs

/-- Canonicalize curly quotes to straight quotes (two substitutions whose
patterns are single-character alternations, hence a character map). -/
def mapQuotes (cs : Str) : Str :=
  cs.map (fun c =>
    if c == Char.ofNat 0x201c || c == Char.ofNat 0x201d then '"'
    else if c == Char.ofNat 0x2018 || c == Char.ofNat 0x2019 then Char.ofNat 0x27
    else c)

/-- Match condition for the pattern whitespace-plus-then-LF at the start of
cs, ending at index p: at least one whitespace character precedes the LF at
index p.  The greedy quantifier with backtracking selects the greatest such
p. -/
def wsNlB (cs : Str) (p : Nat) : Bool :=
  decide (1 ≤ p) && (cs.take p).all isPySpace && cs.get? p == some '\n'

/-- Greedy end of a match of the whitespace-then-LF pattern at the start of
cs: the greatest index p carrying the LF of the match, if any. -/
def greedyEnd (cs : Str) : Option Nat :=
  if wsNlB cs (Nat.findGreatest (fun p => wsNlB cs p = true) cs.length) then
    some (Nat.findGreatest (fun p => wsNlB cs p = true) cs.length)
  else none

/-- Substitution replacing every match of whitespace-plus-then-LF by a
single LF, scanning left to right over non-overlapping matches.  Fuel is
the length of the input, enough because every match consumes at least two
characters. -/
def subWsNlGo : Nat → Str → Str
  | 0, cs => cs
  | _ + 1, [] => []
  | fuel + 1, c :: rest =>
    match greedyEnd (c :: rest) with
    | some p => '\n' :: subWsNlGo fuel ((c :: rest).drop (p + 1))
    | none => c :: subWsNlGo fuel rest

def subWsNl (cs : Str) : Str := subWsNlGo cs.length cs

/-- Substitution replacing every run of three or more LF by exactly two. -/
def collapseNl3Go : Nat → Str → Str
  | 0, cs => cs
  | _ + 1, [] => []
  | fuel + 1, c :: rest =>
    if c == '\n' then
      let run := 1 + (rest.takeWhile (fun d => d == '\n')).length
      (if 3 ≤ run then ['\n', '\n'] else List.replicate run '\n') ++
        collapseNl3Go fuel (rest.dropWhile (fun d => d == '\n'))
    else c :: collapseNl3Go fuel rest

def collapseNl3 (cs : Str) : Str := collapseNl3Go cs.length cs

/-- normalize_text from the source: line-ending conversion, tab and
no-break-space collapse, quote canonicalization, removal of whitespace
runs before LF, collapse of LF runs, and final strip. -/
def normalize_text (cs : Str) : Str :=
  pyStrip (collapseNl3 (subWsNl (mapQuotes (collapseTabNbsp (replCR (replCRLF cs))))))

/-! ## clamp -/

/-- Soft truncation with an ellipsis marker, from the source. -/
def clamp (s : Str) (n : Nat) : Str :=
  if s.length ≤ n then s else s.take n ++ [Char.ofNat 0x2026]

/-! ## Reference extraction (the ECLI pattern)

The pattern is a word boundary, the literal ECLI and a colon, exactly two
letters and a colon, two or more letters and a colon, exactly four digits
and a colon, one or more alphanumerics, an optional dash-digits suffix,
and a word boundary, matched case-insensitively.  Greedy runs need no
backtracking except at the optional suffix: if the trailing word boundary
fails after the suffix digits, the suffix is dropped and the boundary
before the dash always holds. -/

/-- Trailing word-boundary test on the remaining input. -/
def boundaryOkW (cs : Str) : Bool :=
  match cs with
  | [] => true
  | c :: _ => !(isWordChar c)

/-- Try to match the ECLI pattern at the current position; prevW tells
whether the previous character was a word character (the leading word
boundary requires it not to be).  Returns the matched characters. -/
def matchEcliAt (prevW : Bool) (cs : Str) : Option Str :=
  if prevW then none
  else
    match cs with
    | e :: c1 :: l1 :: i1 :: col1 :: rest0 =>
      if e.toLower == 'e' && c1.toLower == 'c' && l1.toLower == 'l' &&
          i1.toLower == 'i' && col1 == ':' then
        match rest0 with
        | a1 :: a2 :: col2 :: rest1 =>
          if a1.isAlpha && a2.isAlpha && col2 == ':' then
            let court := rest1.takeWhile Char.isAlpha
            let rest2 := rest1.dropWhile Char.isAlpha
            if 2 ≤ court.length then
              match rest2 with
              | col3 :: rest3 =>
                if col3 == ':' then
                  match rest3 with
                  | y1 :: y2 :: y3 :: y4 :: col4 :: rest4 =>
                    if y1.isDigit && y2.isDigit && y3.isDigit && y4.isDigit &&
                        col4 == ':' then
                      let cid := rest4.takeWhile Char.isAlphanum
                      let rest5 := rest4.dropWhile Char.isAlphanum
                      if cid.isEmpty then none
                      else
                        let base := e :: c1 :: l1 :: i1 :: ':' ::
                          a1 :: a2 :: ':' :: (court ++ ':' ::
                          y1 :: y2 :: y3 :: y4 :: ':' :: cid)
                        match rest5 with
                        | '-' :: rest6 =>
                          let d := rest6.takeWhile Char.isDigit
                          let rest7 := rest6.dropWhile Char.isDigit
                          if !d.isEmpty && boundaryOkW rest7 then
                            some (base ++ '-' :: d)
                          else some base
                        | _ => if boundaryOkW rest5 then some base else none
                    else none
                  | _ => none
                else none
              | [] => none
            else none
          else none
        | _ => none
      else none
    | _ => none

/-- Non-overlapping left-to-right scan for ECLI matches; fuel is the input
length (every match consumes at least one character). -/
def ecliScanGo : Nat → Bool → Str → List Str
  | 0, _, _ => []
  | _ + 1, _, [] => []
  | fuel + 1, prevW, c :: rest =>
    match matchEcliAt prevW (c :: rest) with
    | some m => m :: ecliScanGo fuel true ((c :: rest).drop m.length)
    | none => ecliScanGo fuel (isWordChar c) rest

def ecliScan (t : Str) : List Str := ecliScanGo t.length false t

def strUpper (cs : Str) : Str := cs.map Char.toUpper

/-- First-occurrence deduplication, as the dict-from-keys idiom of the
source. -/
def dedupFirstGo (seen : List Str) : List Str → List Str
  | [] => []
  | x :: rest =>
    if x ∈ seen then dedupFirstGo seen rest
    else x :: dedupFirstGo (x :: seen) rest

def dedupFirst (l : List Str) : List Str := dedupFirstGo [] l

/-- extract_eclis from the source: scan, upper-case, deduplicate keeping
first occurrences. -/
def extract_eclis (t : Str) : List Str :=
  dedupFirst ((ecliScan t).map strUpper)

/-! ## Header detection

Primary pattern: word boundary, r/o marker with optional dots or the rov
literal, optional whitespace, then a numbering path of one to four
dot-separated digit groups captured as group one, then a word boundary.
Backtracking notes mirror the Python engine: the optional marker dots are
forced by the input (a skipped present dot puts a dot where a digit or
whitespace is required, which always fails); digit runs are maximal (a
shortened run puts a digit where a dot or boundary is required); if the
trailing word boundary fails, dropping the final digit group always
repairs it because the boundary then falls before a dot, and if there is
no group to drop the whole alternative fails. -/

structure Header where
  num : Str
  hstart : Nat
  hend : Nat
deriving DecidableEq

/-- Parse up to k additional dot-digit groups, greedily. -/
def parseGroups : Nat → Str → (List Str × Str)
  | 0, cs => ([], cs)
  | k + 1, cs =>
    match cs with
    | [] => ([], [])
    | c :: cs1 =>
      if c = '.' then
        (if (cs1.takeWhile Char.isDigit).isEmpty then ([], c :: cs1)
         else
           ((cs1.takeWhile Char.isDigit) :: (parseGroups k (cs1.dropWhile Char.isDigit)).1,
            (parseGroups k (cs1.dropWhile Char.isDigit)).2))
      else ([], c :: cs1)

def joinNum (d0 : Str) (gs : List Str) : Str :=
  d0 ++ gs.foldr (fun g acc => '.' :: g ++ acc) []

/-- Parse the captured numbering path with the trailing word boundary,
including the drop-last-group backtrack.  Returns the captured path and
the remaining input after the match. -/
def parseNumTail (cs : Str) : Option (Str × Str) :=
  if (cs.takeWhile Char.isDigit).isEmpty then none
  else
    if boundaryOkW (parseGroups 3 (cs.dropWhile Char.isDigit)).2 then
      some (joinNum (cs.takeWhile Char.isDigit)
          (parseGroups 3 (cs.dropWhile Char.isDigit)).1,
        (parseGroups 3 (cs.dropWhile Char.isDigit)).2)
    else
      match (parseGroups 3 (cs.dropWhile Char.isDigit)).1.getLast? with
      | none => none
      | some glast =>
        some (joinNum (cs.takeWhile Char.isDigit)
            (parseGroups 3 (cs.dropWhile Char.isDigit)).1.dropLast,
          '.' :: glast ++ (parseGroups 3 (cs.dropWhile Char.isDigit)).2)

def optDot : Str → (Nat × Str)
  | '.' :: r => (1, r)
  | cs => (0, cs)

def lowIs (c d : Char) : Bool := c.toLower == d

/-- First marker alternative: r, optional dot, o, optional dot. -/
def parseMarker1 : Str → Option (Nat × Str)
  | c :: r0 =>
    if lowIs c 'r' then
      let p1 := optDot r0
      match p1.2 with
      | o :: r2 =>
        if lowIs o 'o' then
          let p2 := optDot r2
          some (2 + p1.1 + p2.1, p2.2)
        else none
      | [] => none
    else none
  | [] => none

/-- Second marker alternative: the rov literal with a dot. -/
def parseMarker2 : Str → Option (Nat × Str)
  | c1 :: c2 :: c3 :: c4 :: r =>
    if lowIs c1 'r' && lowIs c2 'o' && lowIs c3 'v' && c4 == '.' then
      some (4, r)
    else none
  | _ => none

/-- Continuation after a marker: optional whitespace then the captured
numbering path.  Returns total match length and the captured path. -/
def matchRoCont (mlen : Nat) (r : Str) : Option (Nat × Str) :=
  match parseNumTail (r.dropWhile isPySpace) with
  | some nr => some (mlen + (r.takeWhile isPySpace).length + nr.1.length, nr.1)
  | none => none

/-- Second alternative with its continuation; tried when the first
alternative fails at the marker or at the continuation. -/
def matchRoTry2 (cs : Str) : Option (Nat × Str) :=
  match parseMarker2 cs with
  | some mr2 => matchRoCont mr2.1 mr2.2
  | none => none

/-- Try the primary header pattern at the current position. -/
def matchRoAt (prevW : Bool) (cs : Str) : Option (Nat × Str) :=
  if prevW then none
  else
    match parseMarker1 cs with
    | some mr =>
      (match matchRoCont mr.1 mr.2 with
       | some res => some res
       | none => matchRoTry2 cs)
    | none => matchRoTry2 cs

/-- Scan for primary header matches; the flag records whether the previous
character is a word character.  After a match the scan resumes at its end
with the flag set, because a captured path ends in a digit. -/
def roScanGo : Nat → Bool → Nat → Str → List Header
  | 0, _, _, _ => []
  | _ + 1, _, _, [] => []
  | fuel + 1, prevW, pos, c :: rest =>
    match matchRoAt prevW (c :: rest) with
    | some ln =>
      { num := ln.2, hstart := pos, hend := pos + ln.1 } ::
        roScanGo fuel true (pos + ln.1) ((c :: rest).drop ln.1)
    | none => roScanGo fuel (isWordChar c) (pos + 1) rest

def roFinditer (t : Str) : List Header := roScanGo t.length false 0 t

/-- Delimiter class of the fallback pattern lookahead: whitespace, colon,
em-dash, dash. -/
def isNumDelim (c : Char) : Bool :=
  isPySpace c || c == ':' || c == Char.ofNat 0x2014 || c == '-'

/-- Fallback pattern at a line start: a numbering path followed, without
consuming it, by a delimiter.  No backtracking can succeed: a shortened
digit run puts the lookahead at a digit and a dropped group puts it at a
dot, neither of which is a delimiter. -/
def matchNumAt (cs : Str) : Option (Nat × Str) :=
  if (cs.takeWhile Char.isDigit).isEmpty then none
  else
    match (parseGroups 3 (cs.dropWhile Char.isDigit)).2 with
    | c :: _ =>
      if isNumDelim c then
        some ((joinNum (cs.takeWhile Char.isDigit)
            (parseGroups 3 (cs.dropWhile Char.isDigit)).1).length,
          joinNum (cs.takeWhile Char.isDigit)
            (parseGroups 3 (cs.dropWhile Char.isDigit)).1)
      else none
    | [] => none

/-- Scan for fallback matches; the flag records whether the position is a
line start (string start or right after LF).  After a match the scan
resumes at the end of the captured path, whose last character is a digit,
so the flag is cleared. -/
def numScanGo : Nat → Bool → Nat → Str → List Header
  | 0, _, _, _ => []
  | _ + 1, _, _, [] => []
  | fuel + 1, atLS, pos, c :: rest =>
    match (if atLS then matchNumAt (c :: rest) else none) with
    | some ln =>
      { num := ln.2, hstart := pos, hend := pos + ln.1 } ::
        numScanGo fuel false (pos + ln.1) ((c :: rest).drop ln.1)
    | none => numScanGo fuel (c == '\n') (pos + 1) rest

def numFinditer (t : Str) : List Header := numScanGo t.length true 0 t

def digitsToNat (ds : Str) : Nat :=
  ds.foldl (fun a c => 10 * a + (c.toNat - 48)) 0

/-- First component of a numbering path as an integer, as the int call on
the part before the first dot; an unparsable component maps to zero as the
except branch of the source does. -/
def firstComp (num : Str) : Nat :=
  digitsToNat (num.takeWhile (fun c => c != '.'))

def startLE (a b : Header) : Prop := a.hstart ≤ b.hstart

instance : DecidableRel startLE := fun a b => by unfold startLE; infer_instance

/-- _collect_headers from the source: primary matches, else fallback
matches whose first component lies in one to fifty; then a stable sort by
start position (the list sort of the source is stable, so it agrees with
insertion sort by a total preorder). -/
def collectHeaders (t : Str) : List Header :=
  List.insertionSort startLE
    (if (roFinditer t).isEmpty then
      (numFinditer t).filter
        (fun h => decide (0 < firstComp h.num) && decide (firstComp h.num ≤ 50))
    else roFinditer t)

/-! ## Segmentation -/

/-- Removal of one leading punctuation mark with surrounding whitespace
(the anchored substitution can fire at most once). -/
def stripLeadPunct (cs : Str) : Str :=
  match cs.dropWhile isPySpace with
  | c :: rest =>
    if c == ':' || c == '-' || c == Char.ofNat 0x2014 then
      rest.dropWhile isPySpace
    else cs
  | [] => cs

/-- Removal of leading repetitions of the header number: each repetition
is the literal number, an optional dot, then optional whitespace, repeated
greedily.  Fuel bounds the loop; each repetition consumes at least the
number, which is nonempty for every scanner-produced header. -/
def stripNumRepsGo (num : Str) : Nat → Str → Str
  | 0, cs => cs
  | fuel + 1, cs =>
    if num.isPrefixOf cs then
      let r0 := cs.drop num.length
      let r1 := match r0 with
        | '.' :: t => t
        | _ => r0
      stripNumRepsGo num fuel (r1.dropWhile isPySpace)
    else cs

def stripNumReps (num : Str) (cs : Str) : Str :=
  if num.isEmpty then cs else stripNumRepsGo num (cs.length + 1) cs

/-- Block construction from consecutive header pairs, with the content
cleanup of the source; blocks with empty cleaned content are dropped. -/
def segLoop (t : Str) : List Header → List (Str × Str)
  | [] => []
  | h :: rest =>
    let nextStart :=
      match rest with
      | h2 :: _ => h2.hstart
      | [] => t.length
    let raw := (t.drop h.hend).take (nextStart - h.hend)
    let content := stripNumReps h.num (stripLeadPunct (pyStrip raw))
    if content.isEmpty then segLoop t rest
    else (h.num, content) :: segLoop t rest

def segment_rechtsoverwegingen (t0 : Str) : List (Str × Str) :=
  segLoop (normalize_text t0) (collectHeaders (normalize_text t0))

/-! ## Scoring and ranking -/

def KEYWORDS_STRONG : List Str :=
  [str "rechtsregel", str "toetsingskader", str "maatstaf", str "oordeelt",
   str "overweegt", str "schending", str "niet-ontvankelijk", str "verwerpt",
   str "gegrond", str "ongegrond", str "cassatie", str "sluit aan bij",
   str "art.", str "artikel", str "evrm", str "bw", str "sr", str "sv",
   str "proportionaliteit", str "subsidiariteit", str "motiveringsgebrek",
   str "belangenafweging", str "kwalificatie"]

def strLower (cs : Str) : Str := cs.map Char.toLower

/-- Substring occurrence test, the in operator on strings: pat occurs
somewhere in the remaining text. -/
def isSubstr (pat : Str) : Str → Bool
  | [] => pat.isEmpty
  | c :: rest => pat.isPrefixOf (c :: rest) || isSubstr pat rest

/-- Occurrence of the article-citation pattern at the current position of
an already lower-cased text. -/
def artHere : Str → Bool
  | 'a' :: 'r' :: 't' :: '.' :: r =>
    (match r.dropWhile isPySpace with
     | c :: _ => c.isDigit
     | [] => false)
  | _ => false

def artSearchGo : Bool → Str → Bool
  | _, [] => false
  | prevW, c :: rest => (!prevW && artHere (c :: rest)) || artSearchGo (isWordChar c) rest

def artSearch (t : Str) : Bool := artSearchGo false t

/-- score_block from the source, in exact integer tenths. -/
def score_block (num content : Str) (has_ecli : Bool) : Int :=
  let text := strLower (num ++ ' ' :: content)
  let kwScore : Int := 20 * ((KEYWORDS_STRONG.countP (fun kw => isSubstr kw text) : Nat) : Int)
  let s1 : Int := kwScore + (if artSearch text then 15 else 0)
  let s2 : Int := s1 + (if isSubstr (str "evrm") text then 10 else 0)
  let n := content.length
  let lenAdj : Int :=
    if 250 ≤ n ∧ n ≤ 1200 then 12
    else if 1800 < n then -6
    else if n < 120 then -4
    else 0
  let s3 := s2 + lenAdj
  let s4 := s3 + (if has_ecli then 3 else 0)
  let depth := num.count '.'
  s4 + min 9 (3 * (depth : Int))

def _has_children (num : Str) (allNums : List Str) : Bool :=
  allNums.any (fun n => (num ++ ['.']).isPrefixOf n)

def RO_MAX_CHARS : Nat := 1600
def TOPK_RO : Nat := 12
def MIN_PARENT_LEN : Nat := 220

structure Scored where
  num : Str
  content : Str
  score : Int
  len : Nat
deriving DecidableEq

/-- Lexicographic order on character lists, code-point order, as the
string comparison of the source language. -/
def strLeB : Str → Str → Bool
  | [], _ => true
  | _ :: _, [] => false
  | a :: as, b :: bs =>
    if a < b then true else if b < a then false else strLeB as bs

/-- Sort key of the ranker: score descending, then length descending, then
numbering path ascending in string order. -/
def rankLEB (x y : Scored) : Bool :=
  if x.score = y.score then
    (if x.len = y.len then strLeB x.num y.num else decide (y.len < x.len))
  else decide (y.score < x.score)

def rankRel (x y : Scored) : Prop := rankLEB x y = true

instance : DecidableRel rankRel := fun x y => by unfold rankRel; infer_instance

def mkScored (has_ecli : Bool) (b : Str × Str) : Scored :=
  { num := b.1, content := b.2, score := score_block b.1 b.2 has_ecli,
    len := b.2.length }

/-- Pre-scoring filter: drop blocks that have a child block and whose
content is shorter than the parent threshold. -/
def rankFiltered (blocks : List (Str × Str)) : List (Str × Str) :=
  blocks.filter
    (fun b => !(_has_children b.1 (blocks.map Prod.fst) && decide (b.2.length < MIN_PARENT_LEN)))

/-- The sorted scored list; the stable list sort of the source is modelled
by insertion sort, the unique stable sort for a total preorder. -/
def rankSorted (blocks : List (Str × Str)) (has_ecli : Bool) : List Scored :=
  List.insertionSort rankRel ((rankFiltered blocks).map (mkScored has_ecli))

/-- Selection loop of the ranker: skip already seen numbering paths,
append the clamped block, stop once the output reaches topk. -/
def takeLoop (k : Nat) : List Scored → List Str → List (Str × Str) → List (Str × Str)
  | [], _, top => top
  | x :: rest, seen, top =>
    if x.num ∈ seen then takeLoop k rest seen top
    else
      let top' := top ++ [(x.num, clamp (pyStrip x.content) RO_MAX_CHARS)]
      if k ≤ top'.length then top' else takeLoop k rest (x.num :: seen) top'

def rank_ro_blocks (blocks : List (Str × Str)) (text : Str) (topk : Nat) : List (Str × Str) :=
  takeLoop topk (rankSorted blocks (!(extract_eclis text).isEmpty)) [] []

/-- Specification-side selection: deduplicate by numbering path keeping
first occurrences, take the first k, clamp. -/
def dedupByNumGo (seen : List Str) : List Scored → List Scored
  | [] => []
  | x :: rest =>
    if x.num ∈ seen then dedupByNumGo seen rest
    else x :: dedupByNumGo (x.num :: seen) rest

def selectSpec (k : Nat) (sorted : List Scored) : List (Str × Str) :=
  ((dedupByNumGo [] sorted).take k).map
    (fun x => (x.num, clamp (pyStrip x.content) RO_MAX_CHARS))

/-! ## Guardrails -/

inductive Rol
  | Rule
  | Application
  | Conclusion
  | Overig
deriving DecidableEq

/-- Annotated block of the validated external result. -/
structure Ann where
  ro_nummer : Str
  rol : Rol
  quote : Str
  inhoud : Str
  citaten : List Str
deriving DecidableEq

/-- Anti-hallucination guard from the source: when the allowed list is
nonempty, every block whose number is not allowed is demoted to Overig;
when the allowed list is empty the truthiness test of the source skips the
demotion entirely. -/
def _deny_unknown_ro_nums (items : List Ann) (allowed : List Str) : List Ann :=
  items.map
    (fun ro =>
      if !allowed.isEmpty && decide (ro.ro_nummer ∉ allowed) then
        { ro with rol := Rol.Overig }
      else ro)

def wantKw : Rol → List Str
  | Rol.Rule =>
    [str "rechtsregel", str "maatstaf", str "toetsingskader", str "volgt uit",
     str "heeft te gelden"]
  | Rol.Application =>
    [str "toegepast", str "in casu", str "in dit geval", str "het hof",
     str "de rechtbank", str "past toe"]
  | Rol.Conclusion =>
    [str "concludeert", str "oordeelt", str "veroordeelt", str "vernietigt",
     str "verwerpt", str "gegrond", str "ongegrond", str "beslist"]
  | Rol.Overig => []

/-- Keyword score of a block for a role, counted over the lower-cased
concatenation of summary and quote. -/
def roleScore (want : Rol) (ro : Ann) : Nat :=
  (wantKw want).countP
    (fun kw => isSubstr kw (strLower (ro.inhoud ++ ' ' :: ro.quote)))

/-- Loop of _pick_best_for_role: first strictly larger score wins, scores
must exceed the initial zero. -/
def pickBestGo (want : Rol) : List Ann → Nat → Option Nat → Nat → Option Nat
  | [], _, bi, _ => bi
  | ro :: rest, i, bi, bs =>
    if ro.rol = Rol.Overig then
      (if bs < roleScore want ro then
        pickBestGo want rest (i + 1) (some i) (roleScore want ro)
       else pickBestGo want rest (i + 1) bi bs)
    else pickBestGo want rest (i + 1) bi bs

def _pick_best_for_role (items : List Ann) (want : Rol) : Option Nat :=
  pickBestGo want items 0 none 0

def setRol : List Ann → Nat → Rol → List Ann
  | [], _, _ => []
  | ro :: rest, 0, w => { ro with rol := w } :: rest
  | ro :: rest, i + 1, w => ro :: setRol rest i w

def applyPick (items : List Ann) (want : Rol) : List Ann :=
  match _pick_best_for_role items want with
  | some i => setRol items i want
  | none => items

def enforceSteps : List Rol → List Ann → List Ann
  | [], items => items
  | w :: ws, items => enforceSteps ws (applyPick items w)

/-- Missing mandatory roles.  The source iterates a set difference whose
order the language leaves unspecified; the model fixes the canonical
order Rule, Application, Conclusion. -/
def neededRoles (items : List Ann) : List Rol :=
  [Rol.Rule, Rol.Application, Rol.Conclusion].filter
    (fun r => !(items.map Ann.rol).contains r)

def _enforce_min_roles (items : List Ann) : List Ann :=
  enforceSteps (neededRoles items) items

/-- Postprocessing applied to a validated result by the orchestration:
minimum-role enforcement, then the anti-hallucination guard. -/
def guardrail (items : List Ann) (allowed : List Str) : List Ann :=
  _deny_unknown_ro_nums (_enforce_min_roles items) allowed

/-- Curly quote characters replaced by the two quote substitutions. -/
def isCurly (c : Char) : Bool :=
  c == Char.ofNat 0x201c || c == Char.ofNat 0x201d ||
  c == Char.ofNat 0x2018 || c == Char.ofNat 0x2019

/-! ## Well-formed marker documents

A definable class of input texts that contain well-formed primary markers:
a document is a list of units, each rendered as the marker "r.o. ", a
numbering path (first digit group and up to three further groups) and a
space-separated body; units are separated by single spaces.  The validity
conditions keep the rendering already normalized, keep marker detection
unambiguous (bodies avoid the letter r in both cases), and keep the
content cleanup of the segmenter from altering the body. -/

structure RoUnit where
  d0 : Str
  gs : List Str
  body : Str

def unitNum (u : RoUnit) : Str := joinNum u.d0 u.gs

def markerStr (u : RoUnit) : Str := str "r.o. " ++ unitNum u ++ ' ' :: u.body

def renderTail : List RoUnit → Str
  | [] => []
  | u :: us => ' ' :: (markerStr u ++ renderTail us)

def renderDoc : List RoUnit → Str
  | [] => []
  | u :: us => markerStr u ++ renderTail us

/-- Nonempty all-digit group. -/
def validCompB (d : Str) : Bool := !d.isEmpty && d.all Char.isDigit

/-- Body characters: no r in either case (so no marker can start inside a
body), no line break, and none of the characters the normalizer
rewrites. -/
def validBodyCharB (c : Char) : Bool :=
  !(c.toLower == 'r') && !(c == '\n') && !(c == '\r') &&
  !(isTabNbsp c) && !(isCurly c)

def headOkB (b : Str) : Bool :=
  match b.head? with
  | none => true
  | some c =>
    !(isPySpace c) && !(c.isDigit) && !(c == ':') && !(c == '-') &&
    !(c == Char.ofNat 0x2014)

def lastOkB (b : Str) : Bool :=
  match b.getLast? with
  | none => true
  | some c => !(isPySpace c)

def validUnitB (u : RoUnit) : Bool :=
  validCompB u.d0 && decide (u.gs.length ≤ 3) && u.gs.all validCompB &&
  !u.body.isEmpty && u.body.all validBodyCharB && headOkB u.body && lastOkB u.body

/-- The headers the primary scanner finds on a rendered document. -/
def plantedHeaders : Nat → List RoUnit → List Header
  | _, [] => []
  | pos, u :: us =>
    { num := unitNum u, hstart := pos, hend := pos + 5 + (unitNum u).length } ::
      plantedHeaders (pos + (markerStr u).length + 1) us

/-- Word-character state after scanning over a chunk. -/
def lastW (safe : Str) (w : Bool) : Bool :=
  match safe.getLast? with
  | some c => isWordChar c
  | none => w

/-! ## Structure of normalized text

The output of normalize_text contains no CR, no tab, no no-break space and
no curly quote, has no whitespace character immediately before an LF, and
is stripped.  Each pass of normalize_text is the identity on text of this
shape, which gives idempotence. -/

/-- Adjacent-pair invariant: no whitespace character directly before LF. -/
def goodPair (a b : Char) : Prop := b = '\n' → isPySpace a = false

instance : DecidableRel goodPair := fun _ _ => by unfold goodPair; infer_instance

/-- Shape of the output of normalize_text. -/
def Normalized (cs : Str) : Prop :=
  (∀ c ∈ cs, c ≠ '\r' ∧ isTabNbsp c = false ∧ isCurly c = false) ∧
  List.Chain' goodPair cs ∧
  (∀ c ∈ cs.head?, isPySpace c = false) ∧
  (∀ c ∈ cs.getLast?, isPySpace c = false)

theorem map_eq_self_of_mem {f : Char → Char} :
    ∀ {cs : Str}, (∀ c ∈ cs, f c = c) → cs.map f = cs
  | [], _ => rfl
  | c :: rest, h => by
    simp only [List.map_cons, h c (by simp)]
    exact congrArg (c :: ·) (map_eq_self_of_mem (fun x hx => h x (by simp [hx])))

theorem replCRLF_eq_self : ∀ {cs : Str}, (∀ c ∈ cs, c ≠ '\r') → replCRLF cs = cs
  | [], _ => rfl
  | [_], _ => rfl
  | c :: d :: rest, h => by
    have hc : c ≠ '\r' := h c (by simp)
    have hcd : ¬ (c = '\r' ∧ d = '\n') := fun hh => hc hh.1
    simp only [replCRLF]
    rw [if_neg hcd]
    refine congrArg (c :: ·) (replCRLF_eq_self (show ∀ x ∈ d :: rest, x ≠ '\r' from ?_))
    intro x hx
    exact h x (by simp only [List.mem_cons] at hx ⊢; tauto)

theorem replCR_eq_self {cs : Str} (h : ∀ c ∈ cs, c ≠ '\r') : replCR cs = cs := by
  unfold replCR
  apply map_eq_self_of_mem
  intro c hc
  simp [h c hc]

theorem collapseTabNbspGo_eq_self {cs : Str} (h : ∀ c ∈ cs, isTabNbsp c = false) :
    ∀ b, collapseTabNbspGo b cs = cs := by
  induction cs with
  | nil => intro b; rfl
  | cons c rest ih =>
    intro b
    have hc : isTabNbsp c = false := h c (by simp)
    simp only [collapseTabNbspGo, hc, Bool.false_eq_true, if_false]
    exact congrArg (c :: ·) (ih (fun x hx => h x (by simp [hx])) false)

theorem mapQuotes_eq_self {cs : Str} (h : ∀ c ∈ cs, isCurly c = false) :
    mapQuotes cs = cs := by
  unfold mapQuotes
  apply map_eq_self_of_mem
  intro c hc
  have hx := h c hc
  simp only [isCurly, Bool.or_eq_false_iff, beq_eq_false_iff_ne, ne_eq] at hx
  obtain ⟨⟨⟨h1, h2⟩, h3⟩, h4⟩ := hx
  simp [h1, h2, h3, h4]

theorem wsNlB_iff {cs : Str} {p : Nat} :
    wsNlB cs p = true ↔
      1 ≤ p ∧ (∀ c ∈ cs.take p, isPySpace c = true) ∧ cs.get? p = some '\n' := by
  unfold wsNlB
  simp only [Bool.and_eq_true, decide_eq_true_eq, List.all_eq_true, beq_iff_eq]
  tauto

/-- Soundness of greedyEnd: a returned index really carries a match. -/
theorem greedyEnd_sound' {cs : Str} {p : Nat} (h : greedyEnd cs = some p) :
    wsNlB cs p = true := by
  unfold greedyEnd at h
  split at h
  · rename_i hb
    cases h
    exact hb
  · simp at h

theorem greedyEnd_sound {cs : Str} {p : Nat} (h : greedyEnd cs = some p) :
    1 ≤ p ∧ (∀ c ∈ cs.take p, isPySpace c = true) ∧ cs.get? p = some '\n' :=
  wsNlB_iff.mp (greedyEnd_sound' h)

theorem wsNlB_lt_length {cs : Str} {q : Nat} (hq : wsNlB cs q = true) :
    q < cs.length :=
  List.get?_eq_some.mp (wsNlB_iff.mp hq).2.2 |>.1

/-- Maximality of greedyEnd among match end points. -/
theorem greedyEnd_max {cs : Str} {p : Nat} (h : greedyEnd cs = some p)
    {q : Nat} (hq : wsNlB cs q = true) : q ≤ p := by
  unfold greedyEnd at h
  split at h
  · cases h
    exact Nat.le_findGreatest (Nat.le_of_lt (wsNlB_lt_length hq)) hq
  · simp at h

/-- Completeness of greedyEnd: if some index matches, a match is returned. -/
theorem greedyEnd_isSome {cs : Str} {q : Nat} (hq : wsNlB cs q = true) :
    (greedyEnd cs).isSome := by
  have hspec := Nat.findGreatest_spec (P := fun p => wsNlB cs p = true)
    (Nat.le_of_lt (wsNlB_lt_length hq)) hq
  unfold greedyEnd
  simp only [hspec, if_true, Option.isSome_some]

theorem greedyEnd_eq_none_of_chain {cs : Str} (h : List.Chain' goodPair cs) :
    greedyEnd cs = none := by
  cases hg : greedyEnd cs with
  | none => rfl
  | some p =>
    exfalso
    obtain ⟨hp1, hws, hnl⟩ := greedyEnd_sound hg
    obtain ⟨q, rfl⟩ : ∃ q, p = q + 1 := ⟨p - 1, by omega⟩
    have hplen : q + 1 < cs.length := (List.get?_eq_some.mp hnl).1
    rw [List.chain'_iff_get] at h
    have hpair := h q (by omega)
    have hgetp : cs.get ⟨q + 1, hplen⟩ = '\n' := by
      have hx := List.get?_eq_get (l := cs) (n := q + 1) hplen
      rw [hx] at hnl
      exact Option.some_injective _ hnl
    have hwsm : isPySpace (cs.get ⟨q, by omega⟩) = true := by
      apply hws
      have hmem : (cs.take (q + 1)).get? q = some (cs.get ⟨q, by omega⟩) := by
        rw [List.get?_take (by omega)]
        exact List.get?_eq_get (by omega)
      exact List.get?_mem hmem
    have hfalse := hpair hgetp
    rw [hfalse] at hwsm
    exact Bool.false_ne_true hwsm

theorem subWsNlGo_eq_self {cs : Str} (h : List.Chain' goodPair cs) :
    ∀ fuel, subWsNlGo fuel cs = cs := by
  induction cs with
  | nil => intro fuel; cases fuel <;> rfl
  | cons c rest ih =>
    intro fuel
    cases fuel with
    | zero => rfl
    | succ fuel =>
      simp only [subWsNlGo, greedyEnd_eq_none_of_chain h]
      exact congrArg (c :: ·) (ih (h.tail) fuel)

theorem collapseNl3Go_eq_self {cs : Str} (h : List.Chain' goodPair cs) :
    ∀ fuel, collapseNl3Go fuel cs = cs := by
  induction cs with
  | nil => intro fuel; cases fuel <;> rfl
  | cons c rest ih =>
    intro fuel
    cases fuel with
    | zero => rfl
    | succ fuel =>
      by_cases hc : c = '\n'
      · subst hc
        have hdne : ∀ d, rest.head? = some d → d ≠ '\n' := by
          intro d hd hdn
          subst hdn
          have hpair := (List.chain'_cons'.mp h).1 '\n' hd rfl
          exact absurd hpair (by decide)
        have hrest : rest.takeWhile (fun d => d == '\n') = [] := by
          cases rest with
          | nil => rfl
          | cons d rest2 =>
            have hd : (d == '\n') = false := by
              simp [hdne d rfl]
            simp [List.takeWhile_cons, hd]
        have hdrop : rest.dropWhile (fun d => d == '\n') = rest := by
          cases rest with
          | nil => rfl
          | cons d rest2 =>
            have hd : (d == '\n') = false := by
              simp [hdne d rfl]
            simp [List.dropWhile_cons, hd]
        simp only [collapseNl3Go, beq_self_eq_true, if_true, hrest, hdrop,
          List.length_nil]
        have hrun : ¬ (3 ≤ 1 + 0) := by omega
        simp only [Nat.add_zero, if_neg hrun, List.replicate, List.cons_append,
          List.nil_append]
        exact congrArg ('\n' :: ·) (ih h.tail fuel)
      · have hc' : (c == '\n') = false := by simp [hc]
        simp only [collapseNl3Go, hc', Bool.false_eq_true, if_false]
        exact congrArg (c :: ·) (ih h.tail fuel)

theorem dropWhile_eq_self_of_head {p : Char → Bool} {cs : Str}
    (h : ∀ c ∈ cs.head?, p c = false) : cs.dropWhile p = cs := by
  cases cs with
  | nil => rfl
  | cons c rest =>
    have : p c = false := h c rfl
    simp [List.dropWhile, this]

theorem pyStrip_eq_self {cs : Str}
    (hh : ∀ c ∈ cs.head?, isPySpace c = false)
    (hl : ∀ c ∈ cs.getLast?, isPySpace c = false) : pyStrip cs = cs := by
  unfold pyStrip
  rw [dropWhile_eq_self_of_head hh]
  have : ∀ c ∈ cs.reverse.head?, isPySpace c = false := by
    intro c hc
    rw [List.head?_reverse] at hc
    exact hl c hc
  rw [dropWhile_eq_self_of_head this, List.reverse_reverse]

/-! Character tracking through the normalize passes. -/

theorem replCR_no_cr {cs : Str} : ∀ c ∈ replCR cs, c ≠ '\r' := by
  intro c hc
  unfold replCR at hc
  obtain ⟨a, _, rfl⟩ := List.mem_map.mp hc
  by_cases ha : a = '\r'
  · simp only [ha, beq_self_eq_true, if_true]
    decide
  · have : (a == '\r') = false := by simp [ha]
    simp only [this, Bool.false_eq_true, if_false]
    exact ha

theorem collapseTabNbspGo_subset :
    ∀ (b : Bool) (cs : Str), ∀ c ∈ collapseTabNbspGo b cs, c ∈ cs ∨ c = ' ' := by
  intro b cs
  induction cs generalizing b with
  | nil => intro c hc; exact absurd hc (by simp [collapseTabNbspGo])
  | cons d rest ih =>
    intro c hc
    simp only [collapseTabNbspGo] at hc
    by_cases hd : isTabNbsp d
    · rw [if_pos hd] at hc
      by_cases hb : b
      · subst hb
        rw [if_pos rfl] at hc
        rcases ih true c hc with h | h
        · exact Or.inl (by simp [h])
        · exact Or.inr h
      · rw [Bool.not_eq_true] at hb
        subst hb
        simp only [Bool.false_eq_true, if_false, List.mem_cons] at hc
        rcases hc with h | h
        · exact Or.inr h
        · rcases ih true c h with h2 | h2
          · exact Or.inl (by simp [h2])
          · exact Or.inr h2
    · rw [if_neg hd] at hc
      rcases List.mem_cons.mp hc with h | h
      · exact Or.inl (by simp [h])
      · rcases ih false c h with h2 | h2
        · exact Or.inl (by simp [h2])
        · exact Or.inr h2

theorem collapseTabNbspGo_no_tab :
    ∀ (b : Bool) (cs : Str), ∀ c ∈ collapseTabNbspGo b cs, isTabNbsp c = false := by
  intro b cs
  induction cs generalizing b with
  | nil => intro c hc; exact absurd hc (by simp [collapseTabNbspGo])
  | cons d rest ih =>
    intro c hc
    simp only [collapseTabNbspGo] at hc
    by_cases hd : isTabNbsp d
    · rw [if_pos hd] at hc
      by_cases hb : b
      · subst hb
        rw [if_pos rfl] at hc
        exact ih true c hc
      · rw [Bool.not_eq_true] at hb
        subst hb
        simp only [Bool.false_eq_true, if_false, List.mem_cons] at hc
        rcases hc with h | h
        · subst h; decide
        · exact ih true c h
    · rw [if_neg hd] at hc
      rcases List.mem_cons.mp hc with h | h
      · subst h
        exact Bool.not_eq_true _ |>.mp hd
      · exact ih false c h

theorem mapQuotes_subset {cs : Str} :
    ∀ c ∈ mapQuotes cs, c ∈ cs ∨ c = '"' ∨ c = Char.ofNat 0x27 := by
  intro c hc
  unfold mapQuotes at hc
  obtain ⟨a, ha, rfl⟩ := List.mem_map.mp hc
  by_cases h1 : (a == Char.ofNat 0x201c || a == Char.ofNat 0x201d) = true
  · simp [h1]
  · rw [Bool.not_eq_true] at h1
    by_cases h2 : (a == Char.ofNat 0x2018 || a == Char.ofNat 0x2019) = true
    · simp [h1, h2]
    · rw [Bool.not_eq_true] at h2
      simp only [h1, h2, Bool.false_eq_true, if_false]
      exact Or.inl ha

theorem mapQuotes_no_curly {cs : Str} : ∀ c ∈ mapQuotes cs, isCurly c = false := by
  intro c hc
  unfold mapQuotes at hc
  obtain ⟨a, _, rfl⟩ := List.mem_map.mp hc
  by_cases h1 : (a == Char.ofNat 0x201c || a == Char.ofNat 0x201d) = true
  · simp only [h1, if_true]; decide
  · rw [Bool.not_eq_true] at h1
    by_cases h2 : (a == Char.ofNat 0x2018 || a == Char.ofNat 0x2019) = true
    · simp only [h1, Bool.false_eq_true, if_false, h2, if_true]; decide
    · rw [Bool.not_eq_true] at h2
      simp only [h1, h2, Bool.false_eq_true, if_false]
      unfold isCurly
      simp only [Bool.or_eq_false_iff] at h1 h2 ⊢
      exact ⟨⟨h1, h2.1⟩, h2.2⟩

theorem subWsNlGo_subset :
    ∀ (fuel : Nat) (cs : Str), ∀ c ∈ subWsNlGo fuel cs, c ∈ cs ∨ c = '\n' := by
  intro fuel
  induction fuel with
  | zero => intro cs c hc; exact Or.inl hc
  | succ fuel ih =>
    intro cs c hc
    cases cs with
    | nil => exact absurd hc (by simp [subWsNlGo])
    | cons d rest =>
      simp only [subWsNlGo] at hc
      cases hg : greedyEnd (d :: rest) with
      | some p =>
        rw [hg] at hc
        rcases List.mem_cons.mp hc with h | h
        · exact Or.inr h
        · rcases ih _ c h with h2 | h2
          · exact Or.inl (List.mem_of_mem_drop h2)
          · exact Or.inr h2
      | none =>
        rw [hg] at hc
        rcases List.mem_cons.mp hc with h | h
        · exact Or.inl (by simp [h])
        · rcases ih rest c h with h2 | h2
          · exact Or.inl (by simp [h2])
          · exact Or.inr h2

theorem collapseNl3Go_subset :
    ∀ (fuel : Nat) (cs : Str), ∀ c ∈ collapseNl3Go fuel cs, c ∈ cs ∨ c = '\n' := by
  intro fuel
  induction fuel with
  | zero => intro cs c hc; exact Or.inl hc
  | succ fuel ih =>
    intro cs c hc
    cases cs with
    | nil => exact absurd hc (by simp [collapseNl3Go])
    | cons d rest =>
      simp only [collapseNl3Go] at hc
      by_cases hd : (d == '\n') = true
      · rw [if_pos hd] at hc
        rcases List.mem_append.mp hc with h | h
        · split at h
          · rcases List.mem_cons.mp h with h2 | h2
            · exact Or.inr h2
            · rcases List.mem_cons.mp h2 with h3 | h3
              · exact Or.inr h3
              · exact absurd h3 (List.not_mem_nil c)
          · exact Or.inr (List.eq_of_mem_replicate h)
        · rcases ih _ c h with h2 | h2
          · exact Or.inl (List.mem_cons_of_mem d ((List.dropWhile_sublist _).subset h2))
          · exact Or.inr h2
      · rw [Bool.not_eq_true] at hd
        rw [hd] at hc
        simp only [Bool.false_eq_true, if_false, List.mem_cons] at hc
        rcases hc with h | h
        · exact Or.inl (by simp [h])
        · rcases ih rest c h with h2 | h2
          · exact Or.inl (by simp [h2])
          · exact Or.inr h2

theorem mem_pyStrip {cs : Str} : ∀ c ∈ pyStrip cs, c ∈ cs := by
  intro c hc
  unfold pyStrip at hc
  rw [List.mem_reverse] at hc
  have h1 := (List.dropWhile_sublist _).subset hc
  rw [List.mem_reverse] at h1
  exact (List.dropWhile_sublist _).subset h1

/-! Adjacent-pair invariant of the output of subWsNl. -/

theorem head?_subWsNlGo :
    ∀ (fuel : Nat) (cs : Str) (y : Char), (subWsNlGo fuel cs).head? = some y →
      ((greedyEnd cs).isSome ∧ y = '\n') ∨ cs.head? = some y := by
  intro fuel cs y h
  cases fuel with
  | zero => exact Or.inr h
  | succ fuel =>
    cases cs with
    | nil => exact absurd h (by simp [subWsNlGo])
    | cons c rest =>
      simp only [subWsNlGo] at h
      cases hg : greedyEnd (c :: rest) with
      | some p =>
        rw [hg] at h
        simp only [List.head?_cons, Option.some_inj] at h
        exact Or.inl ⟨by simp [hg], h.symm⟩
      | none =>
        rw [hg] at h
        simp only [List.head?_cons, Option.some_inj] at h
        exact Or.inr (by rw [List.head?_cons, h])

theorem take_all_ws_succ {cs : Str} {p : Nat}
    (hws : ∀ c ∈ cs.take p, isPySpace c = true) (hnl : cs.get? p = some '\n') :
    ∀ c ∈ cs.take (p + 1), isPySpace c = true := by
  intro c hc
  rw [List.take_succ] at hc
  rcases List.mem_append.mp hc with h | h
  · exact hws c h
  · rw [List.get?_eq_getElem?] at hnl
    rw [hnl] at h
    simp only [Option.toList_some, List.mem_singleton] at h
    subst h
    decide

theorem greedyEnd_drop_none {cs : Str} {p : Nat} (h : greedyEnd cs = some p) :
    greedyEnd (cs.drop (p + 1)) = none := by
  obtain ⟨hp1, hws, hnl⟩ := greedyEnd_sound h
  cases hg : greedyEnd (cs.drop (p + 1)) with
  | none => rfl
  | some q =>
    exfalso
    obtain ⟨hq1, hqws, hqnl⟩ := greedyEnd_sound hg
    have hbig : wsNlB cs (p + 1 + q) = true := by
      rw [wsNlB_iff]
      refine ⟨by omega, ?_, ?_⟩
      · intro c hc
        rw [List.take_add] at hc
        rcases List.mem_append.mp hc with h2 | h2
        · exact take_all_ws_succ hws hnl c h2
        · exact hqws c h2
      · rw [List.get?_eq_getElem?]
        rw [show p + 1 + q = p + 1 + q from rfl]
        rw [← List.getElem?_drop]
        rw [← List.get?_eq_getElem?]
        exact hqnl
    have := greedyEnd_max h hbig
    omega

theorem greedyEnd_drop_head {cs : Str} {p : Nat} (h : greedyEnd cs = some p) :
    (cs.drop (p + 1)).head? ≠ some '\n' := by
  obtain ⟨hp1, hws, hnl⟩ := greedyEnd_sound h
  intro hhead
  rw [List.head?_drop] at hhead
  have hbig : wsNlB cs (p + 1) = true := by
    rw [wsNlB_iff]
    refine ⟨by omega, take_all_ws_succ hws hnl, ?_⟩
    rw [List.get?_eq_getElem?]
    exact hhead
  have := greedyEnd_max h hbig
  omega

theorem chain_subWsNlGo :
    ∀ (fuel : Nat) (cs : Str), cs.length ≤ fuel →
      List.Chain' goodPair (subWsNlGo fuel cs) := by
  intro fuel
  induction fuel with
  | zero =>
    intro cs hlen
    have : cs = [] := List.length_eq_zero.mp (Nat.le_zero.mp hlen)
    subst this
    exact List.chain'_nil
  | succ fuel ih =>
    intro cs hlen
    cases cs with
    | nil => exact List.chain'_nil
    | cons c rest =>
      simp only [subWsNlGo]
      cases hg : greedyEnd (c :: rest) with
      | some p =>
        obtain ⟨hp1, _, hnl⟩ := greedyEnd_sound hg
        have hplen : p < (c :: rest).length := (List.get?_eq_some.mp hnl).1
        rw [List.chain'_cons']
        constructor
        · intro y hy hyn
          subst hyn
          rcases head?_subWsNlGo fuel _ _ hy with ⟨hsome, _⟩ | hhd
          · rw [greedyEnd_drop_none hg] at hsome
            exact absurd hsome (by simp)
          · exact absurd hhd (greedyEnd_drop_head hg)
        · refine ih _ ?_
          rw [List.length_drop]
          simp only [List.length_cons] at hlen ⊢
          omega
      | none =>
        rw [List.chain'_cons']
        constructor
        · intro y hy hyn
          subst hyn
          by_contra hws
          rw [Bool.not_eq_false] at hws
          rcases head?_subWsNlGo fuel rest _ hy with ⟨hsome, _⟩ | hhd
          · obtain ⟨q, hq⟩ := Option.isSome_iff_exists.mp hsome
            obtain ⟨hq1, hqws, hqnl⟩ := greedyEnd_sound hq
            have hbig : wsNlB (c :: rest) (q + 1) = true := by
              rw [wsNlB_iff]
              refine ⟨by omega, ?_, ?_⟩
              · intro x hx
                rw [List.take_succ_cons] at hx
                rcases List.mem_cons.mp hx with h2 | h2
                · subst h2; exact hws
                · exact hqws x h2
              · rw [List.get?_cons_succ]
                exact hqnl
            have := greedyEnd_isSome hbig
            rw [hg] at this
            exact absurd this (by simp)
          · have hbig : wsNlB (c :: rest) 1 = true := by
              rw [wsNlB_iff]
              refine ⟨le_refl 1, ?_, ?_⟩
              · intro x hx
                simp only [List.take_succ_cons, List.take_zero, List.mem_singleton] at hx
                subst hx
                exact hws
              · rw [List.get?_cons_succ, List.get?_eq_getElem?,
                  ← List.head?_eq_getElem?]
                exact hhd
            have := greedyEnd_isSome hbig
            rw [hg] at this
            exact absurd this (by simp)
        · refine ih rest ?_
          simp only [List.length_cons] at hlen
          omega

/-! Invariants of pyStrip. -/

theorem chain'_pyStrip {R : Char → Char → Prop} {cs : Str}
    (h : List.Chain' R cs) : List.Chain' R (pyStrip cs) := by
  unfold pyStrip
  have h1 : List.Chain' R (cs.dropWhile isPySpace) :=
    h.suffix (List.dropWhile_suffix _)
  have h2 : List.Chain' (flip R) ((cs.dropWhile isPySpace).reverse) :=
    List.chain'_reverse.mpr (by
      have : flip (flip R) = R := rfl
      rw [this]
      exact h1)
  have h3 : List.Chain' (flip R)
      (((cs.dropWhile isPySpace).reverse).dropWhile isPySpace) :=
    h2.suffix (List.dropWhile_suffix _)
  exact List.chain'_reverse.mpr h3

theorem head?_dropWhile_false (p : Char → Bool) (l : Str) :
    ∀ c ∈ (l.dropWhile p).head?, p c = false := by
  intro c hc
  have h := List.head?_dropWhile_not p l
  rw [Option.mem_def] at hc
  rw [hc] at h
  exact h

theorem pyStrip_head {cs : Str} : ∀ c ∈ (pyStrip cs).head?, isPySpace c = false := by
  intro c hc
  unfold pyStrip at hc
  rw [Option.mem_def, List.head?_reverse] at hc
  set Y := (cs.dropWhile isPySpace).reverse with hY
  have hZne : Y.dropWhile isPySpace ≠ [] := by
    intro hz
    rw [hz] at hc
    exact Option.noConfusion hc
  obtain ⟨pre, hpre⟩ := List.dropWhile_suffix (l := Y) isPySpace
  have hlast : (Y.dropWhile isPySpace).getLast? = Y.getLast? := by
    conv_rhs => rw [← hpre]
    exact (List.getLast?_append_of_ne_nil pre hZne).symm
  rw [hlast, hY, List.getLast?_reverse] at hc
  exact head?_dropWhile_false isPySpace cs c hc

theorem pyStrip_last {cs : Str} : ∀ c ∈ (pyStrip cs).getLast?, isPySpace c = false := by
  intro c hc
  unfold pyStrip at hc
  rw [Option.mem_def, List.getLast?_reverse] at hc
  exact head?_dropWhile_false isPySpace _ c hc

/-- The output of normalize_text always has the normalized shape. -/
theorem normalize_text_Normalized (cs : Str) : Normalized (normalize_text cs) := by
  unfold normalize_text
  set t1 := replCR (replCRLF cs) with ht1
  set t2 := collapseTabNbsp t1 with ht2
  set t3 := mapQuotes t2 with ht3
  set t4 := subWsNl t3 with ht4
  have hchain4 : List.Chain' goodPair t4 := chain_subWsNlGo t3.length t3 (le_refl _)
  have h5 : collapseNl3 t4 = t4 := collapseNl3Go_eq_self hchain4 t4.length
  rw [h5]
  refine ⟨?_, chain'_pyStrip hchain4, pyStrip_head, pyStrip_last⟩
  intro c hc
  have hc4 : c ∈ t4 := mem_pyStrip c hc
  refine ⟨?_, ?_, ?_⟩
  · rcases subWsNlGo_subset t3.length t3 c hc4 with h | h
    · rcases mapQuotes_subset c h with h2 | h2 | h2
      · rcases collapseTabNbspGo_subset false t1 c h2 with h3 | h3
        · exact replCR_no_cr c h3
        · subst h3; decide
      · subst h2; decide
      · subst h2; decide
    · subst h; decide
  · rcases subWsNlGo_subset t3.length t3 c hc4 with h | h
    · rcases mapQuotes_subset c h with h2 | h2 | h2
      · exact collapseTabNbspGo_no_tab false t1 c h2
      · subst h2; decide
      · subst h2; decide
    · subst h; decide
  · rcases subWsNlGo_subset t3.length t3 c hc4 with h | h
    · exact mapQuotes_no_curly c h
    · subst h; decide

/-- A text of normalized shape is a fixed point of normalize_text. -/
theorem normalize_text_eq_self {cs : Str} (h : Normalized cs) :
    normalize_text cs = cs := by
  obtain ⟨hchars, hchain, hhead, hlast⟩ := h
  unfold normalize_text
  rw [replCRLF_eq_self (fun c hc => (hchars c hc).1),
    replCR_eq_self (fun c hc => (hchars c hc).1),
    show collapseTabNbsp cs = cs from
      collapseTabNbspGo_eq_self (fun c hc => (hchars c hc).2.1) false,
    mapQuotes_eq_self (fun c hc => (hchars c hc).2.2),
    show subWsNl cs = cs from subWsNlGo_eq_self hchain cs.length,
    show collapseNl3 cs = cs from collapseNl3Go_eq_self hchain cs.length,
    pyStrip_eq_self hhead hlast]

/-! ## Claim C10 -/

/-- C10: the normalizer is idempotent: for every input string t,
normalize_text applied to normalize_text of t equals normalize_text of
t. -/
theorem c10_normalize_text_idempotent (t : Str) :
    normalize_text (normalize_text t) = normalize_text t :=
  normalize_text_eq_self (normalize_text_Normalized t)

/-! ## Claim C8 -/

/-- C8: at the failing input, a line, three blank lines and a line, the
normalizer returns the two lines separated by a single line feed rather
than by one blank line: the whitespace-before-LF substitution already
swallows every run of line feeds (even a single blank line, as the second
conjunct shows at a one-blank-line input), so the three-or-more collapse
step of the source can never fire.  This contradicts the claimed collapse
of three or more blank lines to exactly one blank line. -/
theorem c8_blank_lines_not_preserved :
    normalize_text (str "a\n\n\n\nb") = str "a\nb" ∧
    normalize_text (str "a\n\nb") = str "a\nb" ∧
    normalize_text (str "a\n\n\n\nb") ≠ str "a\n\nb" := by decide

/-! ## Claim C1 -/

/-- C1 counterexample: with the empty candidate set offered upstream, a
guardrail-processed result keeps a block whose number is not among the
offered candidates at a role other than Other, because the truthiness
test of the source skips the demotion for an empty allowed set. -/
theorem c1_counterexample :
    ¬ (∀ ro ∈ guardrail
        [{ ro_nummer := str "9.9", rol := Rol.Conclusion, quote := [],
           inhoud := [], citaten := [] }] [],
        ro.ro_nummer ∉ ([] : List Str) → ro.rol = Rol.Overig) := by decide

/-- C1 amended: for every guardrail-processed result and every nonempty
candidate set offered upstream, every annotated block whose number is not
among the offered candidate numbers has role Other in the final result;
with an empty candidate set the guard is skipped. -/
theorem c1_amended_deny_unknown (items : List Ann) (allowed : List Str)
    (hne : allowed ≠ []) :
    ∀ ro ∈ guardrail items allowed, ro.ro_nummer ∉ allowed → ro.rol = Rol.Overig := by
  intro ro hro hnotin
  unfold guardrail _deny_unknown_ro_nums at hro
  obtain ⟨pre, hpre, heq⟩ := List.mem_map.mp hro
  by_cases hmem : pre.ro_nummer ∈ allowed
  · rw [if_neg (by simp [hmem])] at heq
    rw [← heq] at hnotin
    exact absurd hmem hnotin
  · have hie : allowed.isEmpty = false := by
      cases allowed with
      | nil => exact absurd rfl hne
      | cons a l => rfl
    rw [if_pos (by simp [hie, hmem])] at heq
    rw [← heq]

/-- C1 witness: the amended theorem applied to a concrete nonempty
candidate set and a fabricated number. -/
theorem c1_amended_witness :
    ({ ro_nummer := str "9.9", rol := Rol.Overig, quote := [], inhoud := [],
       citaten := [] } : Ann).rol = Rol.Overig :=
  c1_amended_deny_unknown
    [{ ro_nummer := str "9.9", rol := Rol.Rule, quote := [], inhoud := [],
       citaten := [] }]
    [str "1"] (by decide)
    { ro_nummer := str "9.9", rol := Rol.Overig, quote := [], inhoud := [],
      citaten := [] }
    (by decide) (by decide)

/-! ## Claim C2 -/

theorem pickBestGo_sound (want : Rol) :
    ∀ (l : List Ann) (i : Nat) (bi : Option Nat) (bs : Nat) (j : Nat),
      pickBestGo want l i bi bs = some j →
      bi = some j ∨
        ∃ m ro, l.get? m = some ro ∧ j = i + m ∧ ro.rol = Rol.Overig ∧
          bs < roleScore want ro := by
  intro l
  induction l with
  | nil => intro i bi bs j h; exact Or.inl h
  | cons ro rest ih =>
    intro i bi bs j h
    simp only [pickBestGo] at h
    by_cases hrol : ro.rol = Rol.Overig
    · rw [if_pos hrol] at h
      by_cases hsc : bs < roleScore want ro
      · rw [if_pos hsc] at h
        rcases ih (i + 1) (some i) _ j h with h2 | h2
        · refine Or.inr ⟨0, ro, rfl, ?_, hrol, hsc⟩
          injection h2 with h2
          omega
        · obtain ⟨m, ro2, hget, hj, hrol2, hsc2⟩ := h2
          exact Or.inr ⟨m + 1, ro2, by simpa using hget, by omega, hrol2, by omega⟩
      · rw [if_neg hsc] at h
        rcases ih (i + 1) bi bs j h with h2 | h2
        · exact Or.inl h2
        · obtain ⟨m, ro2, hget, hj, hrol2, hsc2⟩ := h2
          exact Or.inr ⟨m + 1, ro2, by simpa using hget, by omega, hrol2, hsc2⟩
    · rw [if_neg hrol] at h
      rcases ih (i + 1) bi bs j h with h2 | h2
      · exact Or.inl h2
      · obtain ⟨m, ro2, hget, hj, hrol2, hsc2⟩ := h2
        exact Or.inr ⟨m + 1, ro2, by simpa using hget, by omega, hrol2, hsc2⟩

theorem pickBestGo_stable (want : Rol) :
    ∀ (l : List Ann) (i j : Nat) (bs : Nat),
      (pickBestGo want l i (some j) bs).isSome := by
  intro l
  induction l with
  | nil => intro i j bs; rfl
  | cons ro rest ih =>
    intro i j bs
    simp only [pickBestGo]
    by_cases hrol : ro.rol = Rol.Overig
    · rw [if_pos hrol]
      by_cases hsc : bs < roleScore want ro
      · rw [if_pos hsc]; exact ih (i + 1) i _
      · rw [if_neg hsc]; exact ih (i + 1) j bs
    · rw [if_neg hrol]; exact ih (i + 1) j bs

theorem pickBestGo_complete (want : Rol) :
    ∀ (l : List Ann) (i : Nat) (bi : Option Nat) (bs : Nat),
      (∃ ro ∈ l, ro.rol = Rol.Overig ∧ bs < roleScore want ro) →
      (pickBestGo want l i bi bs).isSome := by
  intro l
  induction l with
  | nil => intro i bi bs h; exact absurd h (by simp)
  | cons ro rest ih =>
    intro i bi bs h
    simp only [pickBestGo]
    by_cases hrol : ro.rol = Rol.Overig
    · rw [if_pos hrol]
      by_cases hsc : bs < roleScore want ro
      · rw [if_pos hsc]; exact pickBestGo_stable want rest (i + 1) i _
      · rw [if_neg hsc]
        refine ih (i + 1) bi bs ?_
        obtain ⟨ro2, hmem, hov, hscore⟩ := h
        rcases List.mem_cons.mp hmem with h2 | h2
        · subst h2; exact absurd hscore hsc
        · exact ⟨ro2, h2, hov, hscore⟩
    · rw [if_neg hrol]
      refine ih (i + 1) bi bs ?_
      obtain ⟨ro2, hmem, hov, hscore⟩ := h
      rcases List.mem_cons.mp hmem with h2 | h2
      · subst h2; exact absurd hov hrol
      · exact ⟨ro2, h2, hov, hscore⟩

theorem setRol_get?_self :
    ∀ (l : List Ann) (i : Nat) (w : Rol) (ro : Ann),
      l.get? i = some ro → (setRol l i w).get? i = some { ro with rol := w } := by
  intro l
  induction l with
  | nil => intro i w ro h; exact absurd h (by simp)
  | cons a rest ih =>
    intro i w ro h
    cases i with
    | zero =>
      simp only [List.get?_cons_zero, Option.some_inj] at h
      subst h
      rfl
    | succ i =>
      simp only [List.get?_cons_succ] at h
      simp only [setRol, List.get?_cons_succ]
      exact ih i w ro h

theorem setRol_get?_other :
    ∀ (l : List Ann) (i : Nat) (w : Rol) (j : Nat), j ≠ i →
      (setRol l i w).get? j = l.get? j := by
  intro l
  induction l with
  | nil => intro i w j _; cases i <;> rfl
  | cons a rest ih =>
    intro i w j hne
    cases i with
    | zero =>
      cases j with
      | zero => exact absurd rfl hne
      | succ j => rfl
    | succ i =>
      cases j with
      | zero => rfl
      | succ j =>
        simp only [setRol, List.get?_cons_succ]
        exact ih i w j (by omega)

theorem applyPick_cases (items : List Ann) (w : Rol) :
    applyPick items w = items ∨
      ∃ i ro, items.get? i = some ro ∧ ro.rol = Rol.Overig ∧
        0 < roleScore w ro ∧ applyPick items w = setRol items i w := by
  unfold applyPick _pick_best_for_role
  cases h : pickBestGo w items 0 none 0 with
  | none => exact Or.inl rfl
  | some j =>
    rcases pickBestGo_sound w items 0 none 0 j h with h2 | h2
    · exact absurd h2 (by simp)
    · obtain ⟨m, ro, hget, hj, hrol, hsc⟩ := h2
      refine Or.inr ⟨j, ro, ?_, hrol, hsc, rfl⟩
      rw [hj]
      simpa using hget

theorem applyPick_preserves {w : Rol} (hw : w ≠ Rol.Overig)
    (items : List Ann) (w' : Rol)
    (h : ∃ i ro, items.get? i = some ro ∧ ro.rol = w) :
    ∃ i ro, (applyPick items w').get? i = some ro ∧ ro.rol = w := by
  obtain ⟨i, ro, hget, hrol⟩ := h
  rcases applyPick_cases items w' with hcase | hcase
  · exact ⟨i, ro, by rw [hcase]; exact hget, hrol⟩
  · obtain ⟨p, rp, hgetp, hrolp, _, heq⟩ := hcase
    by_cases hip : i = p
    · subst hip
      rw [hget] at hgetp
      injection hgetp with hgetp
      rw [← hgetp] at hrolp
      rw [hrolp] at hrol
      exact absurd hrol.symm hw
    · refine ⟨i, ro, ?_, hrol⟩
      rw [heq, setRol_get?_other items p w' i hip]
      exact hget

theorem applyPick_fills (items : List Ann) (w : Rol)
    (h : ∃ ro ∈ items, ro.rol = Rol.Overig ∧ 0 < roleScore w ro) :
    ∃ i ro, (applyPick items w).get? i = some ro ∧ ro.rol = w := by
  have hsome := pickBestGo_complete w items 0 none 0 h
  unfold applyPick _pick_best_for_role
  obtain ⟨j, hj⟩ := Option.isSome_iff_exists.mp hsome
  rw [hj]
  rcases pickBestGo_sound w items 0 none 0 j hj with h2 | h2
  · exact absurd h2 (by simp)
  · obtain ⟨m, ro, hget, hjm, hrol, _⟩ := h2
    have hget' : items.get? j = some ro := by rw [hjm]; simpa using hget
    exact ⟨j, { ro with rol := w }, setRol_get?_self items j w ro hget', rfl⟩

theorem enforceSteps_preserves {w : Rol} (hw : w ≠ Rol.Overig) :
    ∀ (ws : List Rol) (items : List Ann),
      (∃ i ro, items.get? i = some ro ∧ ro.rol = w) →
      ∃ i ro, (enforceSteps ws items).get? i = some ro ∧ ro.rol = w := by
  intro ws
  induction ws with
  | nil => intro items h; exact h
  | cons w' ws ih =>
    intro items h
    exact ih (applyPick items w') (applyPick_preserves hw items w' h)

theorem enforceSteps_append :
    ∀ (a b : List Rol) (items : List Ann),
      enforceSteps (a ++ b) items = enforceSteps b (enforceSteps a items) := by
  intro a
  induction a with
  | nil => intro b items; rfl
  | cons w a ih => intro b items; exact ih b (applyPick items w)

theorem enforceSteps_rol_change :
    ∀ (ws : List Rol) (items : List Ann) (i : Nat) (ro ro' : Ann),
      items.get? i = some ro → (enforceSteps ws items).get? i = some ro' →
      ro' = ro ∨ ro.rol = Rol.Overig := by
  intro ws
  induction ws with
  | nil =>
    intro items i ro ro' h1 h2
    simp only [enforceSteps] at h2
    rw [h1] at h2
    injection h2 with h2
    exact Or.inl h2.symm
  | cons w ws ih =>
    intro items i ro ro' h1 h2
    simp only [enforceSteps] at h2
    rcases applyPick_cases items w with hcase | hcase
    · rw [hcase] at h2
      exact ih items i ro ro' h1 h2
    · obtain ⟨p, rp, hgetp, hrolp, _, heq⟩ := hcase
      rw [heq] at h2
      by_cases hip : i = p
      · subst hip
        rw [h1] at hgetp
        injection hgetp with hgetp
        right
        rw [← hgetp] at hrolp
        exact hrolp
      · have hmid : (setRol items p w).get? i = some ro := by
          rw [setRol_get?_other items p w i hip]
          exact h1
        exact ih (setRol items p w) i ro ro' hmid h2

theorem mem_iff_get?_ann {l : List Ann} {a : Ann} :
    a ∈ l ↔ ∃ n, l.get? n = some a := List.mem_iff_get?

/-- C2 counterexample: a result with the Application role present, no Rule
and no Conclusion, and a single Other block whose text scores positively
for both missing roles.  The block is promoted for the first processed
missing role only, so the Conclusion role is still absent after guardrail
processing even though an Other-labeled block scored above zero against
its keyword set. -/
theorem c2_counterexample :
    (¬ ∃ ro ∈
        [({ ro_nummer := str "1", rol := Rol.Overig, quote := [],
            inhoud := str "maatstaf oordeelt", citaten := [] } : Ann),
         { ro_nummer := str "2", rol := Rol.Application, quote := [],
           inhoud := [], citaten := [] }], ro.rol = Rol.Conclusion) ∧
    (∃ ro ∈
        [({ ro_nummer := str "1", rol := Rol.Overig, quote := [],
            inhoud := str "maatstaf oordeelt", citaten := [] } : Ann),
         { ro_nummer := str "2", rol := Rol.Application, quote := [],
           inhoud := [], citaten := [] }],
        ro.rol = Rol.Overig ∧ 0 < roleScore Rol.Conclusion ro) ∧
    (¬ ∃ ro ∈ _enforce_min_roles
        [({ ro_nummer := str "1", rol := Rol.Overig, quote := [],
            inhoud := str "maatstaf oordeelt", citaten := [] } : Ann),
         { ro_nummer := str "2", rol := Rol.Application, quote := [],
           inhoud := [], citaten := [] }], ro.rol = Rol.Conclusion) := by decide

/-- C2 amended: missing roles are processed in order; for each missing
role, if a block labeled Other at the moment that role is processed
scores above zero against its keyword set, then after minimum-role
enforcement the result contains a block with that role.  Moreover a block
is promoted at most once per run: a block whose role differs after
enforcement was labeled Other on entry.  (A single Other block scoring
for several missing roles fills only the first of them, and the later
anti-hallucination pass may still demote a promoted block whose number is
not among the candidates.) -/
theorem c2_amended_min_roles :
    (∀ (items : List Ann) (pre : List Rol) (w : Rol) (post : List Rol),
      neededRoles items = pre ++ w :: post →
      (∃ ro ∈ enforceSteps pre items, ro.rol = Rol.Overig ∧ 0 < roleScore w ro) →
      ∃ ro ∈ _enforce_min_roles items, ro.rol = w) ∧
    (∀ (items : List Ann) (i : Nat) (ro ro' : Ann),
      items.get? i = some ro → (_enforce_min_roles items).get? i = some ro' →
      ro' ≠ ro → ro.rol = Rol.Overig) := by
  constructor
  · intro items pre w post hneed hex
    have hwmem : w ∈ neededRoles items := by
      rw [hneed]
      exact List.mem_append.mpr (Or.inr (List.mem_cons_self w post))
    have hw : w ≠ Rol.Overig := by
      unfold neededRoles at hwmem
      have := List.mem_filter.mp hwmem |>.1
      intro hcon
      subst hcon
      simp at this
    unfold _enforce_min_roles
    rw [hneed, enforceSteps_append]
    show ∃ ro ∈ enforceSteps (w :: post) (enforceSteps pre items), ro.rol = w
    have hfill := applyPick_fills (enforceSteps pre items) w hex
    have hpres := enforceSteps_preserves hw post (applyPick (enforceSteps pre items) w) hfill
    obtain ⟨i, ro, hget, hrol⟩ := hpres
    exact ⟨ro, mem_iff_get?_ann.mpr ⟨i, hget⟩, hrol⟩
  · intro items i ro ro' h1 h2 hne
    unfold _enforce_min_roles at h2
    rcases enforceSteps_rol_change (neededRoles items) items i ro ro' h1 h2 with h3 | h3
    · exact absurd h3 hne
    · exact h3

/-- C2 witness: the amended theorem applied to a single Other block that
scores for the Rule role, processed first among the three missing
roles. -/
theorem c2_amended_witness :
    ∃ ro ∈ _enforce_min_roles
      [({ ro_nummer := str "1", rol := Rol.Overig, quote := [],
          inhoud := str "maatstaf", citaten := [] } : Ann)],
      ro.rol = Rol.Rule :=
  c2_amended_min_roles.1
    [{ ro_nummer := str "1", rol := Rol.Overig, quote := [],
       inhoud := str "maatstaf", citaten := [] }]
    [] Rol.Rule [Rol.Application, Rol.Conclusion]
    (by decide) (by decide)

/-! ## Claims C4 and C5 -/

theorem takeLoop_nodup :
    ∀ (l : List Scored) (k : Nat) (seen : List Str) (top : List (Str × Str)),
      (∀ n ∈ top.map Prod.fst, n ∈ seen) → (top.map Prod.fst).Nodup →
      ((takeLoop k l seen top).map Prod.fst).Nodup := by
  intro l
  induction l with
  | nil => intro k seen top _ hnd; exact hnd
  | cons x rest ih =>
    intro k seen top hsub hnd
    simp only [takeLoop]
    by_cases hseen : x.num ∈ seen
    · rw [if_pos hseen]
      exact ih k seen top hsub hnd
    · rw [if_neg hseen]
      have hx : x.num ∉ top.map Prod.fst := fun hx => hseen (hsub _ hx)
      have hnd' : ((top ++ [(x.num, clamp (pyStrip x.content) RO_MAX_CHARS)]).map Prod.fst).Nodup := by
        rw [List.map_append, List.nodup_append]
        refine ⟨hnd, List.nodup_singleton _, ?_⟩
        intro a ha hb
        simp only [List.map_cons, List.map_nil, List.mem_singleton] at hb
        subst hb
        exact hx ha
      by_cases hlen : k ≤ (top ++ [(x.num, clamp (pyStrip x.content) RO_MAX_CHARS)]).length
      · rw [if_pos hlen]
        exact hnd'
      · rw [if_neg hlen]
        refine ih k (x.num :: seen) _ ?_ hnd'
        intro n hn
        rw [List.map_append] at hn
        rcases List.mem_append.mp hn with h | h
        · exact List.mem_cons_of_mem _ (hsub n h)
        · simp only [List.map_cons, List.map_nil, List.mem_singleton] at h
          subst h
          exact List.mem_cons_self _ _

theorem takeLoop_mem :
    ∀ (l : List Scored) (k : Nat) (seen : List Str) (top : List (Str × Str))
      (c : Str × Str), c ∈ takeLoop k l seen top →
      c ∈ top ∨ ∃ x ∈ l, c = (x.num, clamp (pyStrip x.content) RO_MAX_CHARS) := by
  intro l
  induction l with
  | nil => intro k seen top c hc; exact Or.inl hc
  | cons x rest ih =>
    intro k seen top c hc
    simp only [takeLoop] at hc
    by_cases hseen : x.num ∈ seen
    · rw [if_pos hseen] at hc
      rcases ih k seen top c hc with h | ⟨y, hy, he⟩
      · exact Or.inl h
      · exact Or.inr ⟨y, List.mem_cons_of_mem _ hy, he⟩
    · rw [if_neg hseen] at hc
      by_cases hlen : k ≤ (top ++ [(x.num, clamp (pyStrip x.content) RO_MAX_CHARS)]).length
      · rw [if_pos hlen] at hc
        rcases List.mem_append.mp hc with h | h
        · exact Or.inl h
        · simp only [List.mem_singleton] at h
          exact Or.inr ⟨x, List.mem_cons_self _ _, h⟩
      · rw [if_neg hlen] at hc
        rcases ih k (x.num :: seen) _ c hc with h | ⟨y, hy, he⟩
        · rcases List.mem_append.mp h with h2 | h2
          · exact Or.inl h2
          · simp only [List.mem_singleton] at h2
            exact Or.inr ⟨x, List.mem_cons_self _ _, h2⟩
        · exact Or.inr ⟨y, List.mem_cons_of_mem _ hy, he⟩

theorem takeLoop_length :
    ∀ (l : List Scored) (k : Nat) (seen : List Str) (top : List (Str × Str)),
      top.length < k → (takeLoop k l seen top).length ≤ k := by
  intro l
  induction l with
  | nil => intro k seen top h; exact Nat.le_of_lt h
  | cons x rest ih =>
    intro k seen top h
    simp only [takeLoop]
    by_cases hseen : x.num ∈ seen
    · rw [if_pos hseen]
      exact ih k seen top h
    · rw [if_neg hseen]
      by_cases hlen : k ≤ (top ++ [(x.num, clamp (pyStrip x.content) RO_MAX_CHARS)]).length
      · rw [if_pos hlen]
        rw [List.length_append, List.length_singleton]
        omega
      · rw [if_neg hlen]
        refine ih k (x.num :: seen) _ ?_
        omega

/-- C4 counterexample: an input whose two well-formed markers carry the
same header number yields two separate blocks with the same numbering
path; the duplicates do not collapse and the first block's content is not
extended. -/
theorem c4_counterexample :
    segment_rechtsoverwegingen (str "r.o. 3 foo r.o. 3 bar") =
      [(str "3", str "foo"), (str "3", str "bar")] ∧
    ¬ ((segment_rechtsoverwegingen (str "r.o. 3 foo r.o. 3 bar")).map Prod.fst).Nodup := by
  decide

/-- C4 amended: segmentation does not deduplicate header numbers; the
pairwise distinctness of numbering paths holds instead for the candidate
set produced by the ranker, which deduplicates by numbering path keeping
the first occurrence in ranked order. -/
theorem c4_amended_candidates_nodup (blocks : List (Str × Str)) (text : Str) (k : Nat) :
    ((rank_ro_blocks blocks text k).map Prod.fst).Nodup := by
  unfold rank_ro_blocks
  exact takeLoop_nodup _ k [] [] (by simp) (by simp)

/-- C5 counterexample: with candidate cap zero and a single surviving
block, the ranker returns one block, because the loop of the source
checks the cap only after appending; so the candidate set size can exceed
the cap. -/
theorem c5_counterexample :
    ¬ ((rank_ro_blocks [(str "1", str "x")] [] 0).length ≤ 0) := by decide

/-- C5 amended: every candidate produced by the ranker originates from a
block that survived the short-parent filter, so a block with a child and
content below the parent threshold is never offered; and for every
positive cap the candidate set has size at most the cap (the size bound
fails only for a zero cap). -/
theorem c5_amended_filter_and_cap :
    (∀ (blocks : List (Str × Str)) (text : Str) (k : Nat),
      ∀ c ∈ rank_ro_blocks blocks text k,
        ∃ b ∈ blocks,
          ¬(_has_children b.1 (blocks.map Prod.fst) = true ∧
            b.2.length < MIN_PARENT_LEN) ∧
          c = (b.1, clamp (pyStrip b.2) RO_MAX_CHARS)) ∧
    (∀ (blocks : List (Str × Str)) (text : Str) (k : Nat), 1 ≤ k →
      (rank_ro_blocks blocks text k).length ≤ k) := by
  constructor
  · intro blocks text k c hc
    unfold rank_ro_blocks at hc
    rcases takeLoop_mem _ k [] [] c hc with h | ⟨x, hx, he⟩
    · exact absurd h (List.not_mem_nil c)
    · unfold rankSorted at hx
      have hx2 : x ∈ (rankFiltered blocks).map (mkScored (!(extract_eclis text).isEmpty)) :=
        (List.perm_insertionSort rankRel _).mem_iff.mp hx
      obtain ⟨b, hb, hbx⟩ := List.mem_map.mp hx2
      unfold rankFiltered at hb
      have hbmem := List.mem_filter.mp hb
      refine ⟨b, hbmem.1, ?_, ?_⟩
      · have := hbmem.2
        simp only [Bool.not_eq_true', Bool.and_eq_false_iff] at this
        intro hcon
        rcases this with h2 | h2
        · rw [hcon.1] at h2; exact Bool.noConfusion h2
        · rw [decide_eq_false_iff_not] at h2
          exact h2 hcon.2
      · rw [he, ← hbx]
        rfl
  · intro blocks text k hk
    unfold rank_ro_blocks
    exact takeLoop_length _ k [] [] (by simpa using hk)

/-- C5 witness: the amended cap bound applied at a concrete block list
and a positive cap. -/
theorem c5_amended_witness :
    (rank_ro_blocks [(str "1", str "x")] [] 12).length ≤ 12 :=
  c5_amended_filter_and_cap.2 [(str "1", str "x")] [] 12 (by decide)

/-! ## Claim C6 -/

theorem strLeB_nil_left (b : Str) : strLeB [] b = true := rfl

theorem strLeB_cons {x y : Char} {xs ys : Str} :
    strLeB (x :: xs) (y :: ys) =
      if x < y then true else if y < x then false else strLeB xs ys := rfl

theorem strLeB_cons_lt {x y : Char} (h : x < y) (xs ys : Str) :
    strLeB (x :: xs) (y :: ys) = true := by
  rw [strLeB_cons, if_pos h]

theorem strLeB_cons_gt {x y : Char} (h : y < x) (xs ys : Str) :
    strLeB (x :: xs) (y :: ys) = false := by
  rw [strLeB_cons, if_neg (asymm h), if_pos h]

theorem strLeB_cons_self (x : Char) (xs ys : Str) :
    strLeB (x :: xs) (x :: ys) = strLeB xs ys := by
  rw [strLeB_cons, if_neg (lt_irrefl x), if_neg (lt_irrefl x)]

theorem strLeB_total : ∀ (a b : Str), strLeB a b = true ∨ strLeB b a = true := by
  intro a
  induction a with
  | nil => intro b; exact Or.inl rfl
  | cons x xs ih =>
    intro b
    cases b with
    | nil => exact Or.inr rfl
    | cons y ys =>
      rcases lt_trichotomy x y with h | h | h
      · exact Or.inl (strLeB_cons_lt h xs ys)
      · subst h
        rw [strLeB_cons_self, strLeB_cons_self]
        exact ih ys
      · exact Or.inr (strLeB_cons_lt h ys xs)

theorem strLeB_trans :
    ∀ (a b c : Str), strLeB a b = true → strLeB b c = true → strLeB a c = true := by
  intro a
  induction a with
  | nil => intro b c _ _; rfl
  | cons x xs ih =>
    intro b c hab hbc
    cases b with
    | nil => exact absurd hab (by simp [strLeB])
    | cons y ys =>
      cases c with
      | nil => exact absurd hbc (by simp [strLeB])
      | cons z zs =>
        rcases lt_trichotomy x y with hxy | hxy | hxy
        · rcases lt_trichotomy y z with hyz | hyz | hyz
          · exact strLeB_cons_lt (lt_trans hxy hyz) xs zs
          · subst hyz; exact strLeB_cons_lt hxy xs zs
          · rw [strLeB_cons_gt hyz ys zs] at hbc
            exact Bool.noConfusion hbc
        · subst hxy
          rw [strLeB_cons_self] at hab
          rcases lt_trichotomy x z with hxz | hxz | hxz
          · exact strLeB_cons_lt hxz xs zs
          · subst hxz
            rw [strLeB_cons_self] at hbc ⊢
            exact ih ys zs hab hbc
          · rw [strLeB_cons_gt hxz ys zs] at hbc
            exact Bool.noConfusion hbc
        · rw [strLeB_cons_gt hxy xs ys] at hab
          exact Bool.noConfusion hab

theorem rankLEB_total : ∀ x y : Scored, rankLEB x y = true ∨ rankLEB y x = true := by
  intro x y
  unfold rankLEB
  by_cases hs : x.score = y.score
  · rw [if_pos hs, if_pos hs.symm]
    by_cases hl : x.len = y.len
    · rw [if_pos hl, if_pos hl.symm]
      exact strLeB_total x.num y.num
    · rw [if_neg hl, if_neg (fun h => hl h.symm)]
      simp only [decide_eq_true_eq]
      omega
  · rw [if_neg hs, if_neg (fun h => hs h.symm)]
    simp only [decide_eq_true_eq]
    omega

theorem rankLEB_trans :
    ∀ x y z : Scored, rankLEB x y = true → rankLEB y z = true → rankLEB x z = true := by
  intro x y z hxy hyz
  unfold rankLEB at hxy hyz ⊢
  by_cases hs1 : x.score = y.score
  · rw [if_pos hs1] at hxy
    by_cases hs2 : y.score = z.score
    · rw [if_pos hs2] at hyz
      rw [if_pos (hs1.trans hs2)]
      by_cases hl1 : x.len = y.len
      · rw [if_pos hl1] at hxy
        by_cases hl2 : y.len = z.len
        · rw [if_pos hl2] at hyz
          rw [if_pos (hl1.trans hl2)]
          exact strLeB_trans x.num y.num z.num hxy hyz
        · rw [if_neg hl2] at hyz
          rw [if_neg (by rw [hl1]; exact hl2), hl1]
          exact hyz
      · rw [if_neg hl1] at hxy
        simp only [decide_eq_true_eq] at hxy
        by_cases hl2 : y.len = z.len
        · rw [if_neg (fun h => hl1 (h.trans hl2.symm))]
          simp only [decide_eq_true_eq]
          omega
        · rw [if_neg hl2] at hyz
          simp only [decide_eq_true_eq] at hyz
          rw [if_neg (fun h : x.len = z.len => by omega)]
          simp only [decide_eq_true_eq]
          omega
    · rw [if_neg hs2] at hyz
      simp only [decide_eq_true_eq] at hyz
      rw [if_neg (fun h => hs2 (hs1.symm.trans h))]
      simp only [decide_eq_true_eq]
      omega
  · rw [if_neg hs1] at hxy
    simp only [decide_eq_true_eq] at hxy
    by_cases hs2 : y.score = z.score
    · rw [if_neg (fun h => hs1 (h.trans hs2.symm))]
      simp only [decide_eq_true_eq]
      omega
    · rw [if_neg hs2] at hyz
      simp only [decide_eq_true_eq] at hyz
      rw [if_neg (fun h : x.score = z.score => by omega)]
      simp only [decide_eq_true_eq]
      omega

instance : IsTotal Scored rankRel := ⟨fun x y => rankLEB_total x y⟩

instance : IsTrans Scored rankRel := ⟨fun x y z => rankLEB_trans x y z⟩

theorem takeLoop_eq_selectSpec :
    ∀ (l : List Scored) (k : Nat) (seen : List Str) (top : List (Str × Str)),
      top.length < k →
      takeLoop k l seen top =
        top ++ ((dedupByNumGo seen l).take (k - top.length)).map
          (fun x => (x.num, clamp (pyStrip x.content) RO_MAX_CHARS)) := by
  intro l
  induction l with
  | nil =>
    intro k seen top _
    simp [takeLoop, dedupByNumGo]
  | cons x rest ih =>
    intro k seen top h
    simp only [takeLoop, dedupByNumGo]
    by_cases hseen : x.num ∈ seen
    · rw [if_pos hseen, if_pos hseen]
      exact ih k seen top h
    · rw [if_neg hseen, if_neg hseen]
      by_cases hlen : k ≤ (top ++ [(x.num, clamp (pyStrip x.content) RO_MAX_CHARS)]).length
      · rw [if_pos hlen]
        have hk1 : k - top.length = 1 := by
          rw [List.length_append, List.length_singleton] at hlen
          omega
        rw [hk1]
        rw [show (1 : Nat) = 0 + 1 from rfl, List.take_succ_cons, List.take_zero]
        simp
      · rw [if_neg hlen]
        rw [ih k (x.num :: seen) _ (by
          rw [List.length_append, List.length_singleton] at hlen ⊢
          omega)]
        obtain ⟨n, hn⟩ : ∃ n, k - top.length = n + 1 := ⟨k - top.length - 1, by omega⟩
        rw [hn, List.take_succ_cons, List.map_cons]
        rw [List.length_append, List.length_singleton]
        have hn2 : k - (top.length + 1) = n := by omega
        rw [hn2]
        simp

/-- C6: with a positive cap, candidate selection equals the composition:
stable-sort the surviving scored blocks by score descending, then content
length descending, then numbering path ascending in string order;
deduplicate by numbering path keeping the first occurrence; take the
first k; and soft-truncate each survivor to the per-block character cap
with an ellipsis marker appended when truncated (the clamp definition).
The sorted list is sorted for the rank order and is a permutation of the
filtered scored blocks. -/
theorem c6_selection (blocks : List (Str × Str)) (text : Str) (k : Nat) (hk : 1 ≤ k) :
    rank_ro_blocks blocks text k =
      selectSpec k (rankSorted blocks (!(extract_eclis text).isEmpty)) ∧
    List.Sorted rankRel (rankSorted blocks (!(extract_eclis text).isEmpty)) ∧
    (rankSorted blocks (!(extract_eclis text).isEmpty)).Perm
      ((rankFiltered blocks).map (mkScored (!(extract_eclis text).isEmpty))) := by
  refine ⟨?_, ?_, ?_⟩
  · unfold rank_ro_blocks selectSpec
    rw [takeLoop_eq_selectSpec _ k [] [] (by simpa using hk)]
    simp
  · unfold rankSorted
    exact List.sorted_insertionSort rankRel _
  · unfold rankSorted
    exact List.perm_insertionSort rankRel _

/-- C6 witness: the selection equality at a concrete block list and cap
three. -/
theorem c6_witness :
    rank_ro_blocks [(str "1", str "x")] [] 3 =
      selectSpec 3 (rankSorted [(str "1", str "x")] (!(extract_eclis ([] : Str)).isEmpty)) :=
  (c6_selection [(str "1", str "x")] [] 3 (by decide)).1

/-! ## Claim C9 -/

theorem dedupFirstGo_mem :
    ∀ (l : List Str) (seen : List Str) (x : Str),
      x ∈ dedupFirstGo seen l ↔ (x ∈ l ∧ x ∉ seen) := by
  intro l
  induction l with
  | nil => intro seen x; simp [dedupFirstGo]
  | cons a rest ih =>
    intro seen x
    simp only [dedupFirstGo]
    by_cases ha : a ∈ seen
    · rw [if_pos ha, ih seen x]
      constructor
      · rintro ⟨h1, h2⟩
        exact ⟨List.mem_cons_of_mem a h1, h2⟩
      · rintro ⟨h1, h2⟩
        rcases List.mem_cons.mp h1 with h3 | h3
        · subst h3; exact absurd ha h2
        · exact ⟨h3, h2⟩
    · rw [if_neg ha]
      constructor
      · intro hx
        rcases List.mem_cons.mp hx with h3 | h3
        · exact ⟨by rw [h3]; exact List.mem_cons_self a rest, by rw [h3]; exact ha⟩
        · have := (ih (a :: seen) x).mp h3
          exact ⟨List.mem_cons_of_mem a this.1,
            fun hc => this.2 (List.mem_cons_of_mem a hc)⟩
      · rintro ⟨h1, h2⟩
        rcases List.mem_cons.mp h1 with h3 | h3
        · subst h3; exact List.mem_cons_self x _
        · by_cases hxa : x = a
          · subst hxa; exact List.mem_cons_self x _
          · refine List.mem_cons_of_mem _ ((ih (a :: seen) x).mpr ⟨h3, ?_⟩)
            intro hc
            rcases List.mem_cons.mp hc with h4 | h4
            · exact hxa h4
            · exact h2 h4

theorem dedupFirstGo_sublist :
    ∀ (l : List Str) (seen : List Str), List.Sublist (dedupFirstGo seen l) l := by
  intro l
  induction l with
  | nil => intro seen; exact List.Sublist.refl []
  | cons a rest ih =>
    intro seen
    simp only [dedupFirstGo]
    by_cases ha : a ∈ seen
    · rw [if_pos ha]
      exact (ih seen).cons a
    · rw [if_neg ha]
      exact (ih (a :: seen)).cons₂ a

theorem dedupFirstGo_nodup :
    ∀ (l : List Str) (seen : List Str), (dedupFirstGo seen l).Nodup := by
  intro l
  induction l with
  | nil => intro seen; exact List.nodup_nil
  | cons a rest ih =>
    intro seen
    simp only [dedupFirstGo]
    by_cases ha : a ∈ seen
    · rw [if_pos ha]; exact ih seen
    · rw [if_neg ha]
      refine List.nodup_cons.mpr ⟨?_, ih (a :: seen)⟩
      intro hc
      exact ((dedupFirstGo_mem rest (a :: seen) a).mp hc).2 (List.mem_cons_self a seen)

/-- C9: the reference extractor returns exactly the upper-cased scanner
matches of the structural case-citation pattern, with no duplicates,
preserving first-seen order (the result is a sublist of the upper-cased
match list); and the concrete round trip, a normalized text containing
the same citation identifier in two casings, yields exactly one canonical
upper-case identifier. -/
theorem c9_extract_eclis (t : Str) :
    (extract_eclis t).Nodup ∧
    (∀ s, s ∈ extract_eclis t ↔ s ∈ (ecliScan t).map strUpper) ∧
    List.Sublist (extract_eclis t) ((ecliScan t).map strUpper) ∧
    extract_eclis (normalize_text
        (str "Zie ECLI:NL:HR:2022:AB1 en ecli:nl:hr:2022:ab1."))
      = [str "ECLI:NL:HR:2022:AB1"] := by
  refine ⟨dedupFirstGo_nodup _ [], ?_, dedupFirstGo_sublist _ [], by decide⟩
  intro s
  unfold extract_eclis dedupFirst
  rw [dedupFirstGo_mem]
  simp

/-! ## Claim C7 -/

theorem joinNum_nil_eq (d0 : Str) (gs : List Str) :
    joinNum d0 gs = d0 ++ joinNum [] gs := by
  simp [joinNum]

theorem parseGroups_split :
    ∀ (k : Nat) (cs : Str),
      cs = joinNum [] (parseGroups k cs).1 ++ (parseGroups k cs).2 := by
  intro k
  induction k with
  | zero => intro cs; rfl
  | succ k ih =>
    intro cs
    cases cs with
    | nil => rfl
    | cons c cs1 =>
      by_cases hc : c = '.'
      · subst hc
        have hstep : parseGroups (k + 1) ('.' :: cs1) =
            (if (cs1.takeWhile Char.isDigit).isEmpty then ([], '.' :: cs1)
             else ((cs1.takeWhile Char.isDigit) ::
                 (parseGroups k (cs1.dropWhile Char.isDigit)).1,
               (parseGroups k (cs1.dropWhile Char.isDigit)).2)) := by
          simp [parseGroups]
        rw [hstep]
        by_cases hd : (cs1.takeWhile Char.isDigit).isEmpty
        · rw [if_pos hd]; rfl
        · rw [if_neg hd]
          have hx := ih (cs1.dropWhile Char.isDigit)
          simp only [joinNum, List.nil_append, List.foldr_cons, List.cons_append,
            List.append_assoc] at hx ⊢
          rw [← hx, List.takeWhile_append_dropWhile]
      · have hstep : parseGroups (k + 1) (c :: cs1) = ([], c :: cs1) := by
          simp [parseGroups, hc]
        rw [hstep]
        rfl

theorem matchNumAt_sound {cs : Str} {ln : Nat × Str} (h : matchNumAt cs = some ln) :
    1 ≤ ln.1 ∧ ∃ c, cs.get? ln.1 = some c ∧ isNumDelim c = true := by
  unfold matchNumAt at h
  by_cases hd : (cs.takeWhile Char.isDigit).isEmpty
  · rw [if_pos hd] at h
    exact absurd h (by simp)
  · rw [if_neg hd] at h
    cases hpg : (parseGroups 3 (cs.dropWhile Char.isDigit)).2 with
    | nil =>
      rw [hpg] at h
      replace h : (none : Option (Nat × Str)) = some ln := h
      exact absurd h (by simp)
    | cons c tl =>
      rw [hpg] at h
      replace h : (if isNumDelim c = true then
          some ((joinNum (cs.takeWhile Char.isDigit)
              (parseGroups 3 (cs.dropWhile Char.isDigit)).1).length,
            joinNum (cs.takeWhile Char.isDigit)
              (parseGroups 3 (cs.dropWhile Char.isDigit)).1)
        else none) = some ln := h
      by_cases hdel : isNumDelim c = true
      · rw [if_pos hdel] at h
        cases h
        have hsplit : cs = joinNum (cs.takeWhile Char.isDigit)
            (parseGroups 3 (cs.dropWhile Char.isDigit)).1 ++ (c :: tl) := by
          conv_lhs => rw [← List.takeWhile_append_dropWhile (p := Char.isDigit) (l := cs)]
          rw [joinNum_nil_eq, List.append_assoc]
          rw [← hpg]
          rw [← parseGroups_split 3 (cs.dropWhile Char.isDigit)]
        constructor
        · have hlen : (cs.takeWhile Char.isDigit).length ≥ 1 := by
            cases hx : cs.takeWhile Char.isDigit with
            | nil => rw [hx] at hd; exact absurd rfl hd
            | cons a l => simp [hx]
          show 1 ≤ (joinNum (cs.takeWhile Char.isDigit)
            (parseGroups 3 (cs.dropWhile Char.isDigit)).1).length
          rw [joinNum_nil_eq, List.length_append]
          omega
        · refine ⟨c, ?_, hdel⟩
          set A := joinNum (cs.takeWhile Char.isDigit)
            (parseGroups 3 (cs.dropWhile Char.isDigit)).1 with hA
          show cs.get? A.length = some c
          rw [hsplit, List.get?_eq_getElem?]
          rw [show (A ++ c :: tl)[A.length]? = ((A ++ c :: tl).drop A.length).head?
            from (List.head?_drop _ _).symm]
          rw [List.drop_left]
          rfl
      · rw [if_neg hdel] at h
        exact absurd h (by simp)

theorem numScanGo_sound :
    ∀ (fuel : Nat) (cs : Str) (atLS : Bool) (pos : Nat) (t : Str),
      t.drop pos = cs →
      (atLS = true → (pos = 0 ∨ t.get? (pos - 1) = some '\n')) →
      ∀ h ∈ numScanGo fuel atLS pos cs,
        ((h.hstart = 0 ∨ t.get? (h.hstart - 1) = some '\n') ∧
          ∃ c, t.get? h.hend = some c ∧ isNumDelim c = true) := by
  intro fuel
  induction fuel with
  | zero => intro cs atLS pos t _ _ h hmem; exact absurd hmem (by simp [numScanGo])
  | succ fuel ih =>
    intro cs atLS pos t hdrop hflag h hmem
    cases cs with
    | nil => exact absurd hmem (by simp [numScanGo])
    | cons c rest =>
      simp only [numScanGo] at hmem
      by_cases hls : atLS = true
      · rw [if_pos hls] at hmem
        cases hm : matchNumAt (c :: rest) with
        | some ln =>
          rw [hm] at hmem
          obtain ⟨hln1, d, hget, hdel⟩ := matchNumAt_sound hm
          rcases List.mem_cons.mp hmem with hh | hh
          · subst hh
            refine ⟨hflag hls, d, ?_, hdel⟩
            rw [List.get?_eq_getElem?]
            rw [show t[pos + ln.1]? = (t.drop pos)[ln.1]? from
              (List.getElem?_drop t pos ln.1).symm]
            rw [hdrop]
            rw [← List.get?_eq_getElem?]
            exact hget
          · refine ih _ false (pos + ln.1) t ?_ (by simp) h hh
            rw [← List.drop_drop, hdrop]
        | none =>
          rw [hm] at hmem
          refine ih rest (c == '\n') (pos + 1) t ?_ ?_ h hmem
          · rw [← List.drop_drop, hdrop]
            rfl
          · intro hcnl
            right
            have : t.get? pos = some c := by
              rw [List.get?_eq_getElem?,
                show t[pos]? = (t.drop pos).head? from (List.head?_drop t pos).symm,
                hdrop]
              rfl
            rw [Nat.add_sub_cancel, this]
            rw [show c = '\n' from by simpa using hcnl]
      · rw [Bool.not_eq_true] at hls
        rw [hls] at hmem
        simp only [Bool.false_eq_true, if_false] at hmem
        refine ih rest (c == '\n') (pos + 1) t ?_ ?_ h hmem
        · rw [← List.drop_drop, hdrop]
          rfl
        · intro hcnl
          right
          have : t.get? pos = some c := by
            rw [List.get?_eq_getElem?,
              show t[pos]? = (t.drop pos).head? from (List.head?_drop t pos).symm,
              hdrop]
            rfl
          rw [Nat.add_sub_cancel, this]
          rw [show c = '\n' from by simpa using hcnl]

/-- C7: header detection uses the bare-numeric fallback exactly when the
primary pattern has zero matches (first conjunct: with a primary match
the headers are the sorted primary matches; second conjunct: with zero
primary matches, a fallback match is accepted as a header if and only if
the integer value of its first component lies between one and fifty
inclusive); and every fallback match sits at a line start and is followed
by a delimiter character, whitespace, colon, dash or em-dash. -/
theorem c7_fallback (t : Str) :
    (roFinditer t ≠ [] →
      collectHeaders t = List.insertionSort startLE (roFinditer t)) ∧
    (roFinditer t = [] → ∀ h ∈ numFinditer t,
      (h ∈ collectHeaders t ↔ 1 ≤ firstComp h.num ∧ firstComp h.num ≤ 50)) ∧
    (∀ h ∈ numFinditer t,
      ((h.hstart = 0 ∨ t.get? (h.hstart - 1) = some '\n') ∧
        ∃ c, t.get? h.hend = some c ∧ isNumDelim c = true)) := by
  refine ⟨?_, ?_, ?_⟩
  · intro hne
    unfold collectHeaders
    rw [if_neg (fun hc => hne (List.isEmpty_iff.mp hc))]
  · intro hemp h hmem
    unfold collectHeaders
    rw [if_pos (by rw [hemp]; rfl)]
    rw [(List.perm_insertionSort startLE _).mem_iff, List.mem_filter]
    constructor
    · rintro ⟨_, hcond⟩
      simpa using hcond
    · intro hcond
      exact ⟨hmem, by simpa using hcond⟩
  · intro h hmem
    exact numScanGo_sound t.length t true 0 t rfl (fun _ => Or.inl rfl) h hmem

/-- C7 witness: at an input with zero primary matches, the concrete
fallback match with first component three is accepted as a header. -/
theorem c7_witness :
    ({ num := str "3", hstart := 0, hend := 1 } : Header) ∈
      collectHeaders (str "3 foo") :=
  ((c7_fallback (str "3 foo")).2.1 (by decide)
    { num := str "3", hstart := 0, hend := 1 } (by decide)).mpr (by decide)

/-! ## Claim C3: character-class lemmas -/

theorem digit_toThe {c : Char} (h : c.isDigit = true) : 48 ≤ c.toNat ∧ c.toNat ≤ 57 := by
  simp only [Char.isDigit, Bool.and_eq_true, decide_eq_true_eq] at h
  obtain ⟨h1, h2⟩ := h
  unfold Char.toNat
  exact ⟨UInt32.le_toNat_of_le (by decide) h1, UInt32.toNat_le_of_le (by decide) h2⟩

theorem digit_beq_false {c : Char} (h : c.isDigit = true) (d : Char)
    (hd : d.toNat < 48 ∨ 57 < d.toNat) : (c == d) = false := by
  rw [beq_eq_false_iff_ne]
  rintro rfl
  obtain ⟨h1, h2⟩ := digit_toThe h
  omega

theorem digit_not_pySpace {c : Char} (h : c.isDigit = true) : isPySpace c = false := by
  obtain ⟨h1, h2⟩ := digit_toThe h
  unfold isPySpace
  rw [digit_beq_false h ' ' (by decide), digit_beq_false h '\t' (by decide),
    digit_beq_false h '\n' (by decide), digit_beq_false h '\r' (by decide),
    digit_beq_false h (Char.ofNat 0x0b) (by decide),
    digit_beq_false h (Char.ofNat 0x0c) (by decide),
    digit_beq_false h (Char.ofNat 0x1c) (by decide),
    digit_beq_false h (Char.ofNat 0x1d) (by decide),
    digit_beq_false h (Char.ofNat 0x1e) (by decide),
    digit_beq_false h (Char.ofNat 0x1f) (by decide),
    digit_beq_false h (Char.ofNat 0x85) (by decide),
    digit_beq_false h (Char.ofNat 0xa0) (by decide),
    digit_beq_false h (Char.ofNat 0x1680) (by decide),
    digit_beq_false h (Char.ofNat 0x2028) (by decide),
    digit_beq_false h (Char.ofNat 0x2029) (by decide),
    digit_beq_false h (Char.ofNat 0x202f) (by decide),
    digit_beq_false h (Char.ofNat 0x205f) (by decide),
    digit_beq_false h (Char.ofNat 0x3000) (by decide)]
  have hr : (decide (0x2000 ≤ c.toNat)) = false := decide_eq_false (by omega)
  rw [hr]
  simp

theorem digit_not_tab {c : Char} (h : c.isDigit = true) : isTabNbsp c = false := by
  unfold isTabNbsp
  rw [digit_beq_false h '\t' (by decide), digit_beq_false h (Char.ofNat 0xa0) (by decide)]
  rfl

theorem digit_not_curly {c : Char} (h : c.isDigit = true) : isCurly c = false := by
  unfold isCurly
  rw [digit_beq_false h (Char.ofNat 0x201c) (by decide),
    digit_beq_false h (Char.ofNat 0x201d) (by decide),
    digit_beq_false h (Char.ofNat 0x2018) (by decide),
    digit_beq_false h (Char.ofNat 0x2019) (by decide)]
  rfl

theorem digit_word {c : Char} (h : c.isDigit = true) : isWordChar c = true := by
  simp [isWordChar, Char.isAlphanum, h]

theorem digit_ne_nl {c : Char} (h : c.isDigit = true) : c ≠ '\n' := by
  rintro rfl; exact absurd h (by decide)

theorem digit_ne_cr {c : Char} (h : c.isDigit = true) : c ≠ '\r' := by
  rintro rfl; exact absurd h (by decide)

theorem digit_ne_dot {c : Char} (h : c.isDigit = true) : c ≠ '.' := by
  rintro rfl; exact absurd h (by decide)

theorem digit_toLower {c : Char} (h : c.isDigit = true) : c.toLower = c := by
  obtain ⟨_, h2⟩ := digit_toThe h
  unfold Char.toLower
  rw [if_neg (fun hc => by omega)]

theorem digit_lower_ne_r {c : Char} (h : c.isDigit = true) : c.toLower ≠ 'r' := by
  rw [digit_toLower h]
  rintro rfl
  exact absurd h (by decide)

/-! ## Claim C3: structure of rendered documents -/

theorem str_marker : str "r.o. " = 'r' :: '.' :: 'o' :: '.' :: ' ' :: [] := rfl

theorem takeWhile_append_of {p : Char → Bool} :
    ∀ (l₁ l₂ : Str), (∀ c ∈ l₁, p c = true) → (∀ c ∈ l₂.head?, p c = false) →
      (l₁ ++ l₂).takeWhile p = l₁ ∧ (l₁ ++ l₂).dropWhile p = l₂ := by
  intro l₁
  induction l₁ with
  | nil =>
    intro l₂ _ h2
    constructor
    · cases l₂ with
      | nil => rfl
      | cons c rest => simp [List.takeWhile_cons, h2 c rfl]
    · cases l₂ with
      | nil => rfl
      | cons c rest => simp [List.dropWhile_cons, h2 c rfl]
  | cons a l₁ ih =>
    intro l₂ h1 h2
    have ha : p a = true := h1 a (by simp)
    have hih := ih l₂ (fun c hc => h1 c (by simp [hc])) h2
    constructor
    · simp only [List.cons_append, List.takeWhile_cons, ha, if_true, hih.1]
    · simp only [List.cons_append, List.dropWhile_cons, ha, if_true, hih.2]

theorem chain'_goodPair_of_no_nl :
    ∀ {l : Str}, (∀ c ∈ l, c ≠ '\n') → List.Chain' goodPair l := by
  intro l
  induction l with
  | nil => intro _; exact List.chain'_nil
  | cons c rest ih =>
    intro h
    rw [List.chain'_cons']
    refine ⟨?_, ih (fun x hx => h x (by simp [hx]))⟩
    intro y hy hyn
    exact absurd hyn (h y (by simp [List.mem_of_mem_head? hy]))

theorem mem_foldrGroups :
    ∀ (gs : List Str) (c : Char),
      c ∈ List.foldr (fun g acc => '.' :: g ++ acc) [] gs →
      c = '.' ∨ ∃ g ∈ gs, c ∈ g := by
  intro gs
  induction gs with
  | nil => intro c hc; exact absurd hc (by simp)
  | cons g gs ih =>
    intro c hc
    simp only [List.foldr_cons, List.cons_append, List.mem_cons, List.mem_append] at hc
    rcases hc with rfl | hc2
    · exact Or.inl rfl
    · rcases hc2 with h | h
      · exact Or.inr ⟨g, by simp, h⟩
      · rcases ih c h with h2 | ⟨g2, hg2, hcg2⟩
        · exact Or.inl h2
        · exact Or.inr ⟨g2, by simp [hg2], hcg2⟩

theorem validUnitB_spec {u : RoUnit} (hu : validUnitB u = true) :
    validCompB u.d0 = true ∧ u.gs.length ≤ 3 ∧ (∀ g ∈ u.gs, validCompB g = true) ∧
    u.body ≠ [] ∧ (∀ c ∈ u.body, validBodyCharB c = true) ∧
    headOkB u.body = true ∧ lastOkB u.body = true := by
  unfold validUnitB at hu
  simp only [Bool.and_eq_true, List.all_eq_true, decide_eq_true_eq,
    Bool.not_eq_true', List.isEmpty_eq_false, ne_eq] at hu
  tauto

theorem validCompB_spec {d : Str} (h : validCompB d = true) :
    d ≠ [] ∧ ∀ c ∈ d, c.isDigit = true := by
  unfold validCompB at h
  simp only [Bool.and_eq_true, List.all_eq_true, Bool.not_eq_true',
    List.isEmpty_eq_false, ne_eq] at h
  tauto

theorem validBodyCharB_spec {c : Char} (h : validBodyCharB c = true) :
    c.toLower ≠ 'r' ∧ c ≠ '\n' ∧ c ≠ '\r' ∧ isTabNbsp c = false ∧ isCurly c = false := by
  unfold validBodyCharB at h
  simp only [Bool.and_eq_true, Bool.not_eq_true', beq_eq_false_iff_ne, ne_eq] at h
  tauto

theorem mem_unitNum_digit_or_dot {u : RoUnit} (hu : validUnitB u = true) :
    ∀ c ∈ unitNum u, c.isDigit = true ∨ c = '.' := by
  intro c hc
  obtain ⟨hd0, _, hgs, _⟩ := validUnitB_spec hu
  unfold unitNum joinNum at hc
  rcases List.mem_append.mp hc with h | h
  · exact Or.inl ((validCompB_spec hd0).2 c h)
  · rcases mem_foldrGroups u.gs c h with h2 | ⟨g, hg, hcg⟩
    · exact Or.inr h2
    · exact Or.inl ((validCompB_spec (hgs g hg)).2 c hcg)

theorem unitNum_head {u : RoUnit} (hu : validUnitB u = true) :
    ∃ d r, unitNum u = d :: r ∧ d.isDigit = true := by
  obtain ⟨hd0, _⟩ := validUnitB_spec hu
  obtain ⟨hne, hall⟩ := validCompB_spec hd0
  cases hd : u.d0 with
  | nil => exact absurd hd hne
  | cons d r0 =>
    refine ⟨d, r0 ++ List.foldr (fun g acc => '.' :: g ++ acc) [] u.gs, ?_, ?_⟩
    · unfold unitNum joinNum
      rw [hd, List.cons_append]
    · exact hall d (by rw [hd]; simp)

theorem mem_markerStr_cases {u : RoUnit} {c : Char} (hc : c ∈ markerStr u) :
    c ∈ str "r.o. " ∨ c ∈ unitNum u ∨ c = ' ' ∨ c ∈ u.body := by
  unfold markerStr at hc
  rcases List.mem_append.mp hc with h | h
  · rcases List.mem_append.mp h with h2 | h2
    · exact Or.inl h2
    · exact Or.inr (Or.inl h2)
  · rcases List.mem_cons.mp h with h3 | h3
    · exact Or.inr (Or.inr (Or.inl h3))
    · exact Or.inr (Or.inr (Or.inr h3))

theorem markerStr_char_facts {u : RoUnit} (hu : validUnitB u = true)
    {c : Char} (hc : c ∈ markerStr u) :
    c ≠ '\n' ∧ c ≠ '\r' ∧ isTabNbsp c = false ∧ isCurly c = false := by
  rcases mem_markerStr_cases hc with h | h | h | h
  · rw [str_marker] at h
    simp only [List.mem_cons, List.not_mem_nil, or_false] at h
    rcases h with rfl | rfl | rfl | rfl | rfl <;>
      exact ⟨by decide, by decide, by decide, by decide⟩
  · rcases mem_unitNum_digit_or_dot hu c h with hd | hdd
    · exact ⟨digit_ne_nl hd, digit_ne_cr hd, digit_not_tab hd, digit_not_curly hd⟩
    · subst hdd; exact ⟨by decide, by decide, by decide, by decide⟩
  · subst h; exact ⟨by decide, by decide, by decide, by decide⟩
  · have := validBodyCharB_spec ((validUnitB_spec hu).2.2.2.2.1 c h)
    exact ⟨this.2.1, this.2.2.1, this.2.2.2.1, this.2.2.2.2⟩

theorem markerStr_lower_ne_r {u : RoUnit} (hu : validUnitB u = true)
    {c : Char} (hbody : c ∈ u.body ∨ c = ' ') : c.toLower ≠ 'r' := by
  rcases hbody with h | h
  · exact (validBodyCharB_spec ((validUnitB_spec hu).2.2.2.2.1 c h)).1
  · subst h; decide

theorem mem_renderTail_cases :
    ∀ (us : List RoUnit) (c : Char), c ∈ renderTail us →
      c = ' ' ∨ ∃ u ∈ us, c ∈ markerStr u := by
  intro us
  induction us with
  | nil => intro c hc; exact absurd hc (by simp [renderTail])
  | cons u us ih =>
    intro c hc
    simp only [renderTail, List.mem_cons, List.mem_append] at hc
    rcases hc with rfl | hc2
    · exact Or.inl rfl
    · rcases hc2 with h | h
      · exact Or.inr ⟨u, by simp, h⟩
      · rcases ih c h with h2 | ⟨u2, hu2, hcu2⟩
        · exact Or.inl h2
        · exact Or.inr ⟨u2, by simp [hu2], hcu2⟩

theorem mem_renderDoc_cases :
    ∀ (us : List RoUnit) (c : Char), c ∈ renderDoc us →
      c = ' ' ∨ ∃ u ∈ us, c ∈ markerStr u := by
  intro us c hc
  cases us with
  | nil => exact absurd hc (by simp [renderDoc])
  | cons u us =>
    simp only [renderDoc, List.mem_append] at hc
    rcases hc with h | h
    · exact Or.inr ⟨u, by simp, h⟩
    · rcases mem_renderTail_cases us c h with h2 | ⟨u2, hu2, hcu2⟩
      · exact Or.inl h2
      · exact Or.inr ⟨u2, by simp [hu2], hcu2⟩

theorem markerStr_ne_nil (u : RoUnit) : markerStr u ≠ [] := by
  unfold markerStr
  rw [str_marker]
  simp

theorem markerStr_getLast {u : RoUnit} (hbody : u.body ≠ []) :
    (markerStr u).getLast? = u.body.getLast? := by
  unfold markerStr
  rw [List.getLast?_append_of_ne_nil _ (by simp)]
  rw [show (' ' :: u.body) = [' '] ++ u.body from rfl,
    List.getLast?_append_of_ne_nil _ hbody]

theorem lastOkB_spec {b : Str} (h : lastOkB b = true) :
    ∀ c ∈ b.getLast?, isPySpace c = false := by
  intro c hc
  unfold lastOkB at h
  rw [Option.mem_def] at hc
  rw [hc] at h
  simpa using h

theorem headOkB_spec {b : Str} (h : headOkB b = true) :
    ∀ c ∈ b.head?, isPySpace c = false ∧ c.isDigit = false ∧
      c ≠ ':' ∧ c ≠ '-' ∧ c ≠ Char.ofNat 0x2014 := by
  intro c hc
  unfold headOkB at h
  rw [Option.mem_def] at hc
  rw [hc] at h
  simp only [Bool.and_eq_true, Bool.not_eq_true', beq_eq_false_iff_ne, ne_eq] at h
  tauto

theorem renderDoc_getLast :
    ∀ (us : List RoUnit), (∀ u ∈ us, validUnitB u = true) →
      ∀ c ∈ (renderDoc us).getLast?, isPySpace c = false := by
  intro us
  induction us with
  | nil => intro _ c hc; exact absurd hc (by simp [renderDoc])
  | cons u us ih =>
    intro hv c hc
    cases us with
    | nil =>
      simp only [renderDoc, renderTail, List.append_nil] at hc
      rw [markerStr_getLast (validUnitB_spec (hv u (by simp))).2.2.2.1] at hc
      exact lastOkB_spec (validUnitB_spec (hv u (by simp))).2.2.2.2.2.2 c hc
    | cons u2 us2 =>
      simp only [renderDoc, renderTail] at hc
      rw [List.getLast?_append_of_ne_nil _ (by simp)] at hc
      rw [show (' ' :: (markerStr u2 ++ renderTail us2)) =
          [' '] ++ (markerStr u2 ++ renderTail us2) from rfl,
        List.getLast?_append_of_ne_nil _
          (fun hh => markerStr_ne_nil u2 (List.append_eq_nil.mp hh).1)] at hc
      have hrd : markerStr u2 ++ renderTail us2 = renderDoc (u2 :: us2) := rfl
      rw [hrd] at hc
      exact ih (fun u3 hu3 => hv u3 (by simp [hu3])) c hc

theorem renderDoc_head :
    ∀ (us : List RoUnit), ∀ c ∈ (renderDoc us).head?, isPySpace c = false := by
  intro us c hc
  cases us with
  | nil => exact absurd hc (by simp [renderDoc])
  | cons u us =>
    simp only [renderDoc] at hc
    rw [show markerStr u ++ renderTail us =
        'r' :: ('.' :: 'o' :: '.' :: ' ' :: (unitNum u ++ ' ' :: u.body) ++ renderTail us)
      from by unfold markerStr; rw [str_marker]; simp] at hc
    rw [Option.mem_def, List.head?_cons, Option.some_inj] at hc
    rw [← hc]
    decide

theorem renderDoc_Normalized (us : List RoUnit)
    (hv : ∀ u ∈ us, validUnitB u = true) : Normalized (renderDoc us) := by
  refine ⟨?_, ?_, renderDoc_head us, renderDoc_getLast us hv⟩
  · intro c hc
    rcases mem_renderDoc_cases us c hc with rfl | ⟨u, hu, hcm⟩
    · exact ⟨by decide, by decide, by decide⟩
    · have := markerStr_char_facts (hv u hu) hcm
      exact ⟨this.2.1, this.2.2.1, this.2.2.2⟩
  · apply chain'_goodPair_of_no_nl
    intro c hc
    rcases mem_renderDoc_cases us c hc with rfl | ⟨u, hu, hcm⟩
    · decide
    · exact (markerStr_char_facts (hv u hu) hcm).1

/-! ## Claim C3: the primary scanner on rendered documents -/

theorem parseMarker2_none {c : Char} (h : (c.toLower == 'r') = false) (rest : Str) :
    parseMarker2 (c :: rest) = none := by
  rcases rest with _ | ⟨c2, _ | ⟨c3, _ | ⟨c4, r⟩⟩⟩
  · rfl
  · rfl
  · rfl
  · simp [parseMarker2, lowIs, h]

theorem matchRoAt_none {c : Char} (h : c.toLower ≠ 'r') (w : Bool) (rest : Str) :
    matchRoAt w (c :: rest) = none := by
  have hb : (c.toLower == 'r') = false := beq_eq_false_iff_ne.mpr h
  cases w
  · simp [matchRoAt, parseMarker1, lowIs, hb, matchRoTry2, parseMarker2_none hb]
  · simp [matchRoAt]

theorem lastW_cons (c : Char) (safe : Str) (w : Bool) :
    lastW (c :: safe) w = lastW safe (isWordChar c) := by
  cases safe with
  | nil => rfl
  | cons d rest =>
    unfold lastW
    rw [List.getLast?_cons_cons]
    cases h : (d :: rest).getLast? with
    | none => simp at h
    | some x => rfl

theorem roScanGo_nil (fuel : Nat) (w : Bool) (pos : Nat) : roScanGo fuel w pos [] = [] := by
  cases fuel
  · rfl
  · rfl

theorem roScanGo_skip :
    ∀ (safe : Str) (fuel : Nat) (w : Bool) (pos : Nat) (rest : Str),
      (∀ c ∈ safe, c.toLower ≠ 'r') →
      roScanGo (safe.length + fuel) w pos (safe ++ rest) =
        roScanGo fuel (lastW safe w) (pos + safe.length) rest := by
  intro safe
  induction safe with
  | nil => intro fuel w pos rest _; simp [lastW]
  | cons c safe ih =>
    intro fuel w pos rest h
    have hc : c.toLower ≠ 'r' := h c (by simp)
    have hstep : (c :: safe).length + fuel = (safe.length + fuel) + 1 := by
      simp only [List.length_cons]
      omega
    rw [hstep]
    show roScanGo ((safe.length + fuel) + 1) w pos (c :: (safe ++ rest)) = _
    simp only [roScanGo]
    rw [matchRoAt_none hc w (safe ++ rest)]
    show roScanGo (safe.length + fuel) (isWordChar c) (pos + 1) (safe ++ rest) = _
    rw [ih fuel (isWordChar c) (pos + 1) rest (fun x hx => h x (by simp [hx]))]
    rw [lastW_cons]
    have harith : (pos + 1) + safe.length = pos + (c :: safe).length := by
      simp only [List.length_cons]
      omega
    rw [harith]

theorem roScanGo_safe_all (safe : Str) (h : ∀ c ∈ safe, c.toLower ≠ 'r')
    (f : Nat) (w : Bool) (pos : Nat) (hf : safe.length ≤ f) :
    roScanGo f w pos safe = [] := by
  obtain ⟨f2, rfl⟩ := Nat.le.dest hf
  have h2 := roScanGo_skip safe f2 w pos [] h
  rw [List.append_nil] at h2
  rw [h2]
  exact roScanGo_nil f2 _ _

theorem groups_append_head (gs : List Str) (R : Str)
    (hR : ∀ c ∈ R.head?, Char.isDigit c = false) :
    ∀ c ∈ ((List.foldr (fun g acc => '.' :: g ++ acc) [] gs) ++ R).head?,
      Char.isDigit c = false := by
  cases gs with
  | nil => simpa using hR
  | cons g gs2 =>
    intro c hc
    simp only [List.foldr_cons, List.cons_append, List.head?_cons, Option.mem_def,
      Option.some_inj] at hc
    subst hc
    decide

theorem parseGroups_exact :
    ∀ (gs : List Str) (k : Nat) (R : Str), gs.length ≤ k →
      (∀ g ∈ gs, validCompB g = true) →
      (∀ c ∈ R.head?, c ≠ '.' ∧ Char.isDigit c = false) →
      parseGroups k (List.foldr (fun g acc => '.' :: g ++ acc) [] gs ++ R) = (gs, R) := by
  intro gs
  induction gs with
  | nil =>
    intro k R _ _ hR
    simp only [List.foldr_nil, List.nil_append]
    cases k with
    | zero => rfl
    | succ k0 =>
      cases R with
      | nil => rfl
      | cons c cs =>
        simp only [parseGroups]
        rw [if_neg (hR c rfl).1]
  | cons g gs2 ih =>
    intro k R hk hv hR
    cases k with
    | zero =>
      simp only [List.length_cons] at hk
      omega
    | succ k0 =>
      obtain ⟨hgne, hgall⟩ := validCompB_spec (hv g (by simp))
      have hshape : List.foldr (fun g acc => '.' :: g ++ acc) [] (g :: gs2) ++ R =
          '.' :: (g ++ (List.foldr (fun g acc => '.' :: g ++ acc) [] gs2 ++ R)) := by
        simp [List.append_assoc]
      rw [hshape]
      simp only [parseGroups]
      have hhead : ∀ c ∈ (List.foldr (fun g acc => '.' :: g ++ acc) [] gs2 ++ R).head?,
          Char.isDigit c = false :=
        groups_append_head gs2 R (fun c hc => (hR c hc).2)
      have htw := takeWhile_append_of g _ hgall hhead
      rw [htw.1, htw.2]
      rw [ih k0 R (by simpa using hk) (fun g2 hg2 => hv g2 (by simp [hg2]))
        (fun c hc => hR c hc)]
      have hie : g.isEmpty = false := by
        cases g with
        | nil => exact absurd rfl hgne
        | cons a l => rfl
      simp [hie]

theorem parseNumTail_exact (d0 : Str) (gs : List Str) (R : Str)
    (hd0 : validCompB d0 = true) (hlen : gs.length ≤ 3)
    (hgs : ∀ g ∈ gs, validCompB g = true)
    (hR : ∀ c ∈ R.head?, c ≠ '.' ∧ c.isDigit = false ∧ isWordChar c = false) :
    parseNumTail (joinNum d0 gs ++ R) = some (joinNum d0 gs, R) := by
  obtain ⟨hne, hall⟩ := validCompB_spec hd0
  have hshape : joinNum d0 gs ++ R =
      d0 ++ (List.foldr (fun g acc => '.' :: g ++ acc) [] gs ++ R) := by
    unfold joinNum
    rw [List.append_assoc]
  have hhead : ∀ c ∈ (List.foldr (fun g acc => '.' :: g ++ acc) [] gs ++ R).head?,
      Char.isDigit c = false :=
    groups_append_head gs R (fun c hc => (hR c hc).2.1)
  have htw := takeWhile_append_of d0 _ hall hhead
  have hpg : parseGroups 3 (List.foldr (fun g acc => '.' :: g ++ acc) [] gs ++ R) = (gs, R) :=
    parseGroups_exact gs 3 R hlen hgs (fun c hc => ⟨(hR c hc).1, (hR c hc).2.1⟩)
  have hbd : boundaryOkW R = true := by
    cases R with
    | nil => rfl
    | cons c cs =>
      have := (hR c rfl).2.2
      simp [boundaryOkW, this]
  rw [hshape]
  unfold parseNumTail
  rw [htw.1, htw.2, hpg]
  rw [if_neg (by cases d0 with | nil => exact absurd rfl hne | cons a l => simp)]
  rw [if_pos (show boundaryOkW (gs, R).2 = true from hbd)]

theorem parseNumTail_unit (u : RoUnit) (hu : validUnitB u = true) (R : Str)
    (hR : ∀ c ∈ R.head?, c ≠ '.' ∧ c.isDigit = false ∧ isWordChar c = false) :
    parseNumTail (unitNum u ++ R) = some (unitNum u, R) := by
  obtain ⟨hd0, hlen, hgs, _⟩ := validUnitB_spec hu
  exact parseNumTail_exact u.d0 u.gs R hd0 hlen hgs hR

theorem parseMarker1_ro (X : Str) :
    parseMarker1 ('r' :: '.' :: 'o' :: '.' :: ' ' :: X) = some (4, ' ' :: X) := rfl

theorem matchRoCont_unit (u : RoUnit) (hu : validUnitB u = true) (Y : Str) :
    matchRoCont 4 (' ' :: (unitNum u ++ (' ' :: (u.body ++ Y)))) =
      some (5 + (unitNum u).length, unitNum u) := by
  obtain ⟨d, r, hN, hd⟩ := unitNum_head hu
  have hdw : (' ' :: (unitNum u ++ (' ' :: (u.body ++ Y)))).dropWhile isPySpace =
      unitNum u ++ (' ' :: (u.body ++ Y)) := by
    rw [List.dropWhile_cons, if_pos (by decide)]
    apply dropWhile_eq_self_of_head
    intro c hc
    rw [hN, List.cons_append, List.head?_cons, Option.mem_def, Option.some_inj] at hc
    subst hc
    exact digit_not_pySpace hd
  have htw : (' ' :: (unitNum u ++ (' ' :: (u.body ++ Y)))).takeWhile isPySpace = [' '] := by
    rw [hN, List.cons_append]
    rw [List.takeWhile_cons, if_pos (by decide), List.takeWhile_cons,
      if_neg (by simp [digit_not_pySpace hd])]
  have hpn : parseNumTail (unitNum u ++ (' ' :: (u.body ++ Y))) =
      some (unitNum u, ' ' :: (u.body ++ Y)) := by
    apply parseNumTail_unit u hu
    intro c hc
    rw [Option.mem_def, List.head?_cons, Option.some_inj] at hc
    subst hc
    exact ⟨by decide, by decide, by decide⟩
  unfold matchRoCont
  rw [hdw, hpn, htw]
  rfl

theorem matchRoAt_marker (u : RoUnit) (hu : validUnitB u = true) (Y : Str) :
    matchRoAt false
        ('r' :: '.' :: 'o' :: '.' :: ' ' :: (unitNum u ++ (' ' :: (u.body ++ Y)))) =
      some (5 + (unitNum u).length, unitNum u) := by
  unfold matchRoAt
  rw [if_neg (by simp)]
  simp only [parseMarker1_ro, matchRoCont_unit u hu Y]

theorem renderTail_cons_eq (u2 : RoUnit) (us2 : List RoUnit) :
    renderTail (u2 :: us2) = ' ' :: renderDoc (u2 :: us2) := rfl

theorem renderDoc_cons_shape (u : RoUnit) (us : List RoUnit) :
    renderDoc (u :: us) =
      'r' :: '.' :: 'o' :: '.' :: ' ' :: (unitNum u ++ (' ' :: (u.body ++ renderTail us))) := by
  show markerStr u ++ renderTail us = _
  unfold markerStr
  rw [str_marker]
  simp [List.append_assoc]

theorem markerStr_length (u : RoUnit) :
    (markerStr u).length = 6 + (unitNum u).length + u.body.length := by
  unfold markerStr
  rw [str_marker]
  simp only [List.length_append, List.length_cons, List.length_nil]
  omega

theorem drop5N (N X : Str) :
    ('r' :: '.' :: 'o' :: '.' :: ' ' :: (N ++ X)).drop (5 + N.length) = X := by
  have h1 : ('r' :: '.' :: 'o' :: '.' :: ' ' :: (N ++ X) : Str) =
      (('r' :: '.' :: 'o' :: '.' :: ' ' :: [] : Str) ++ N) ++ X := by
    simp
  have h2 : 5 + N.length = (('r' :: '.' :: 'o' :: '.' :: ' ' :: [] : Str) ++ N).length := by
    simp only [List.length_append, List.length_cons, List.length_nil]
  rw [h1, h2, List.drop_left]

theorem roScanGo_units :
    ∀ (us : List RoUnit) (pos fuel : Nat),
      (∀ u ∈ us, validUnitB u = true) →
      (renderDoc us).length ≤ fuel →
      roScanGo fuel false pos (renderDoc us) = plantedHeaders pos us := by
  intro us
  induction us with
  | nil => intro pos fuel _ _; exact roScanGo_nil fuel false pos
  | cons u us ih =>
    intro pos fuel hv hf
    rw [renderDoc_cons_shape] at hf ⊢
    cases fuel with
    | zero => simp at hf
    | succ f =>
      simp only [roScanGo]
      rw [matchRoAt_marker u (hv u (by simp)) (renderTail us)]
      show ({ num := unitNum u, hstart := pos, hend := pos + (5 + (unitNum u).length) } ::
        roScanGo f true (pos + (5 + (unitNum u).length))
          (('r' :: '.' :: 'o' :: '.' :: ' ' ::
            (unitNum u ++ (' ' :: (u.body ++ renderTail us)))).drop
            (5 + (unitNum u).length))) = _
      rw [drop5N]
      rw [show pos + (5 + (unitNum u).length) = pos + 5 + (unitNum u).length from by omega]
      show _ = ({ num := unitNum u, hstart := pos, hend := pos + 5 + (unitNum u).length } ::
        plantedHeaders (pos + (markerStr u).length + 1) us)
      congr 1
      cases us with
      | nil =>
        show roScanGo f true (pos + 5 + (unitNum u).length) (' ' :: (u.body ++ renderTail [])) = []
        apply roScanGo_safe_all
        · intro c hc
          rcases List.mem_cons.mp hc with rfl | hc2
          · decide
          · rcases List.mem_append.mp hc2 with h3 | h3
            · exact markerStr_lower_ne_r (hv u (by simp)) (Or.inl h3)
            · exact absurd h3 (by simp [renderTail])
        · simp only [List.length_cons, List.length_append, List.length_nil] at hf ⊢
          simp only [renderTail, List.length_nil] at hf ⊢
          omega
      | cons u2 us2 =>
        rw [renderTail_cons_eq] at hf ⊢
        have hsh : (' ' :: (u.body ++ ' ' :: renderDoc (u2 :: us2))) =
            ((' ' :: u.body) ++ [' ']) ++ renderDoc (u2 :: us2) := by
          simp
        rw [hsh]
        have hflen : ('r' :: '.' :: 'o' :: '.' :: ' ' ::
            (unitNum u ++ (' ' :: (u.body ++ ' ' :: renderDoc (u2 :: us2))))).length =
            7 + (unitNum u).length + u.body.length + (renderDoc (u2 :: us2)).length := by
          simp only [List.length_cons, List.length_append]
          omega
        rw [hflen] at hf
        have hle : ((' ' :: u.body) ++ [' ']).length ≤ f := by
          simp only [List.length_append, List.length_cons, List.length_nil]
          omega
        obtain ⟨f2, hf2⟩ := Nat.le.dest hle
        rw [← hf2]
        have hsafe : ∀ c ∈ (' ' :: u.body) ++ [' '], c.toLower ≠ 'r' := by
          intro c hc
          rcases List.mem_append.mp hc with h3 | h3
          · rcases List.mem_cons.mp h3 with rfl | h4
            · decide
            · exact markerStr_lower_ne_r (hv u (by simp)) (Or.inl h4)
          · rcases List.mem_singleton.mp h3 with rfl
            decide
        rw [roScanGo_skip _ f2 true _ _ hsafe]
        have hlw : lastW ((' ' :: u.body) ++ [' ']) true = false := by
          unfold lastW
          rw [List.getLast?_append_of_ne_nil _ (by simp)]
          rfl
        rw [hlw]
        rw [ih (pos + 5 + (unitNum u).length + ((' ' :: u.body) ++ [' ']).length) f2
          (fun x hx => hv x (by simp [hx])) (by
            simp only [List.length_append, List.length_cons, List.length_nil] at hf2 ⊢
            omega)]
        have hpos : pos + 5 + (unitNum u).length + ((' ' :: u.body) ++ [' ']).length =
            pos + (markerStr u).length + 1 := by
          have := markerStr_length u
          simp only [List.length_append, List.length_cons, List.length_nil]
          omega
        rw [hpos]

theorem roFinditer_renderDoc (us : List RoUnit) (hv : ∀ u ∈ us, validUnitB u = true) :
    roFinditer (renderDoc us) = plantedHeaders 0 us := by
  unfold roFinditer
  exact roScanGo_units us 0 (renderDoc us).length hv (Nat.le_refl _)

theorem plantedHeaders_start_le :
    ∀ (us : List RoUnit) (pos : Nat) (h : Header),
      h ∈ plantedHeaders pos us → pos ≤ h.hstart := by
  intro us
  induction us with
  | nil => intro pos h hh; exact absurd hh (by simp [plantedHeaders])
  | cons u us ih =>
    intro pos h hh
    simp only [plantedHeaders, List.mem_cons] at hh
    rcases hh with rfl | hh
    · exact Nat.le_refl pos
    · have := ih (pos + (markerStr u).length + 1) h hh
      omega

theorem plantedHeaders_sorted :
    ∀ (us : List RoUnit) (pos : Nat), (plantedHeaders pos us).Sorted startLE := by
  intro us
  induction us with
  | nil => intro pos; simp [plantedHeaders]
  | cons u us ih =>
    intro pos
    show ({ num := unitNum u, hstart := pos, hend := pos + 5 + (unitNum u).length } ::
      plantedHeaders (pos + (markerStr u).length + 1) us).Sorted startLE
    rw [List.sorted_cons]
    refine ⟨?_, ih _⟩
    intro b hb
    have := plantedHeaders_start_le us _ b hb
    show pos ≤ b.hstart
    omega

theorem collectHeaders_renderDoc (us : List RoUnit)
    (hv : ∀ u ∈ us, validUnitB u = true) :
    collectHeaders (renderDoc us) = plantedHeaders 0 us := by
  unfold collectHeaders
  rw [roFinditer_renderDoc us hv]
  cases us with
  | nil => rfl
  | cons u us2 =>
    rw [if_neg (by simp [plantedHeaders])]
    exact List.Sorted.insertionSort_eq (plantedHeaders_sorted _ 0)

/-! ## Claim C3: the segmenter on rendered documents -/

theorem segLoop_cons (t : Str) (h : Header) (hs : List Header) :
    segLoop t (h :: hs) =
      if (stripNumReps h.num (stripLeadPunct (pyStrip ((t.drop h.hend).take
          ((match hs with | h2 :: _ => h2.hstart | [] => t.length) - h.hend))))).isEmpty
      then segLoop t hs
      else (h.num, stripNumReps h.num (stripLeadPunct (pyStrip ((t.drop h.hend).take
          ((match hs with | h2 :: _ => h2.hstart | [] => t.length) - h.hend))))) ::
        segLoop t hs :=
  rfl

theorem take_sandwich (B D : Str) :
    (' ' :: (B ++ ' ' :: D)).take (B.length + 2) = (' ' :: B) ++ [' '] := by
  have h1 : (' ' :: (B ++ ' ' :: D) : Str) = ((' ' :: B) ++ [' ']) ++ D := by simp
  have h2 : B.length + 2 = ((' ' :: B) ++ [' ']).length := by
    simp only [List.length_append, List.length_cons, List.length_nil]
  rw [h1, h2, List.take_left]

theorem pyStrip_pad1 (B : Str) (hne : B ≠ [])
    (hh : ∀ c ∈ B.head?, isPySpace c = false)
    (hl : ∀ c ∈ B.getLast?, isPySpace c = false) :
    pyStrip ((' ' :: B) ++ [' ']) = B := by
  unfold pyStrip
  have hd1 : ((' ' :: B) ++ [' ']).dropWhile isPySpace = B ++ [' '] := by
    rw [List.cons_append, List.dropWhile_cons, if_pos (by decide)]
    apply dropWhile_eq_self_of_head
    intro c hc
    cases B with
    | nil => exact absurd rfl hne
    | cons b bt =>
      rw [List.cons_append, List.head?_cons, Option.mem_def, Option.some_inj] at hc
      subst hc
      exact hh b rfl
  rw [hd1]
  have hrev : (B ++ [' ']).reverse = ' ' :: B.reverse := by
    rw [List.reverse_append]
    rfl
  rw [hrev, List.dropWhile_cons, if_pos (by decide)]
  rw [dropWhile_eq_self_of_head (by
    intro c hc
    rw [List.head?_reverse] at hc
    exact hl c hc)]
  exact List.reverse_reverse B

theorem pyStrip_pad2 (B : Str)
    (hh : ∀ c ∈ B.head?, isPySpace c = false)
    (hl : ∀ c ∈ B.getLast?, isPySpace c = false) :
    pyStrip (' ' :: B) = B := by
  unfold pyStrip
  rw [List.dropWhile_cons, if_pos (by decide)]
  rw [dropWhile_eq_self_of_head hh]
  rw [dropWhile_eq_self_of_head (by
    intro c hc
    rw [List.head?_reverse] at hc
    exact hl c hc)]
  exact List.reverse_reverse B

theorem stripLeadPunct_eq_self (B : Str)
    (hh : ∀ c ∈ B.head?, isPySpace c = false ∧ (c == ':') = false ∧ (c == '-') = false ∧
      (c == Char.ofNat 0x2014) = false) :
    stripLeadPunct B = B := by
  unfold stripLeadPunct
  rw [dropWhile_eq_self_of_head (fun c hc => (hh c hc).1)]
  cases B with
  | nil => rfl
  | cons b bt =>
    have h := hh b rfl
    show (if (b == ':' || b == '-' || b == Char.ofNat 0x2014) = true then
        List.dropWhile isPySpace bt else b :: bt) = b :: bt
    rw [h.2.1, h.2.2.1, h.2.2.2]
    rfl

theorem stripNumReps_eq_self (N B : Str) (d : Char) (r : Str) (hN : N = d :: r)
    (hd : d.isDigit = true) (hB : ∀ c ∈ B.head?, c.isDigit = false) :
    stripNumReps N B = B := by
  rw [hN]
  show stripNumRepsGo (d :: r) (B.length + 1) B = B
  cases B with
  | nil =>
    show stripNumRepsGo (d :: r) (0 + 1) [] = []
    simp [stripNumRepsGo, List.isPrefixOf]
  | cons b bt =>
    have hdb : (d == b) = false := by
      rw [beq_eq_false_iff_ne]
      rintro rfl
      exact absurd hd (by simp [hB d rfl])
    show stripNumRepsGo (d :: r) (bt.length + 1 + 1) (b :: bt) = b :: bt
    simp [stripNumRepsGo, List.isPrefixOf, hdb]

theorem cleanup_unit (u : RoUnit) (hu : validUnitB u = true) :
    stripNumReps (unitNum u) (stripLeadPunct u.body) = u.body ∧
    stripLeadPunct u.body = u.body := by
  obtain ⟨_, _, _, hbne, _, hhead, _⟩ := validUnitB_spec hu
  have hsl : stripLeadPunct u.body = u.body := by
    apply stripLeadPunct_eq_self
    intro c hc
    have h := headOkB_spec hhead c hc
    exact ⟨h.1, beq_eq_false_iff_ne.mpr h.2.2.1, beq_eq_false_iff_ne.mpr h.2.2.2.1,
      beq_eq_false_iff_ne.mpr h.2.2.2.2⟩
  refine ⟨?_, hsl⟩
  rw [hsl]
  obtain ⟨d, r, hN, hd⟩ := unitNum_head hu
  exact stripNumReps_eq_self (unitNum u) u.body d r hN hd
    (fun c hc => (headOkB_spec hhead c hc).2.1)

theorem body_head_ok {u : RoUnit} (hu : validUnitB u = true) :
    ∀ c ∈ u.body.head?, isPySpace c = false := by
  intro c hc
  exact (headOkB_spec (validUnitB_spec hu).2.2.2.2.2.1 c hc).1

theorem body_last_ok {u : RoUnit} (hu : validUnitB u = true) :
    ∀ c ∈ u.body.getLast?, isPySpace c = false :=
  lastOkB_spec (validUnitB_spec hu).2.2.2.2.2.2

theorem renderDoc_length_cons (u u2 : RoUnit) (us2 : List RoUnit) :
    (renderDoc (u :: u2 :: us2)).length =
      (markerStr u).length + 1 + (renderDoc (u2 :: us2)).length := by
  show (markerStr u ++ renderTail (u2 :: us2)).length = _
  rw [renderTail_cons_eq]
  simp only [List.length_append, List.length_cons]
  omega

theorem renderDoc_one (u : RoUnit) : renderDoc [u] = markerStr u := by
  show markerStr u ++ renderTail [] = markerStr u
  show markerStr u ++ [] = markerStr u
  exact List.append_nil _

theorem segLoop_planted :
    ∀ (us : List RoUnit) (t : Str) (pos : Nat),
      (∀ u ∈ us, validUnitB u = true) →
      t.drop pos = renderDoc us →
      t.length = pos + (renderDoc us).length →
      segLoop t (plantedHeaders pos us) = us.map (fun u => (unitNum u, u.body)) := by
  intro us
  induction us with
  | nil => intro t pos _ _ _; rfl
  | cons u us ih =>
    intro t pos hv hdrop hlen
    have hvu : validUnitB u = true := hv u (by simp)
    have hbne : u.body ≠ [] := (validUnitB_spec hvu).2.2.2.1
    have hdd : t.drop (pos + 5 + (unitNum u).length) = ' ' :: (u.body ++ renderTail us) := by
      have h1 : t.drop (pos + 5 + (unitNum u).length) =
          (t.drop pos).drop (5 + (unitNum u).length) := by
        rw [List.drop_drop]
        congr 1
        omega
      rw [h1, hdrop, renderDoc_cons_shape, drop5N]
    have hbie : u.body.isEmpty = false := by
      cases hb : u.body with
      | nil => exact absurd hb hbne
      | cons b bt => rfl
    cases us with
    | nil =>
      show segLoop t
        [{ num := unitNum u, hstart := pos, hend := pos + 5 + (unitNum u).length }] =
        [(unitNum u, u.body)]
      rw [segLoop_cons]
      show (if (stripNumReps (unitNum u) (stripLeadPunct (pyStrip
          ((t.drop (pos + 5 + (unitNum u).length)).take
            (t.length - (pos + 5 + (unitNum u).length)))))).isEmpty
        then segLoop t []
        else (unitNum u, stripNumReps (unitNum u) (stripLeadPunct (pyStrip
          ((t.drop (pos + 5 + (unitNum u).length)).take
            (t.length - (pos + 5 + (unitNum u).length)))))) :: segLoop t []) = _
      rw [hdd]
      have hcnt : t.length - (pos + 5 + (unitNum u).length) = u.body.length + 1 := by
        rw [hlen, renderDoc_one, markerStr_length]
        omega
      rw [hcnt]
      have htk : (' ' :: (u.body ++ renderTail [])).take (u.body.length + 1) =
          ' ' :: u.body := by
        show (' ' :: (u.body ++ [])).take (u.body.length + 1) = ' ' :: u.body
        rw [List.append_nil]
        rw [show u.body.length + 1 = (' ' :: u.body).length from by
          simp only [List.length_cons]]
        exact List.take_length _
      rw [htk]
      rw [pyStrip_pad2 u.body (body_head_ok hvu) (body_last_ok hvu)]
      rw [(cleanup_unit u hvu).1]
      rw [hbie]
      rfl
    | cons u2 us2 =>
      show segLoop t
        ({ num := unitNum u, hstart := pos, hend := pos + 5 + (unitNum u).length } ::
          plantedHeaders (pos + (markerStr u).length + 1) (u2 :: us2)) =
        (unitNum u, u.body) :: (u2 :: us2).map (fun x => (unitNum x, x.body))
      rw [segLoop_cons]
      show (if (stripNumReps (unitNum u) (stripLeadPunct (pyStrip
          ((t.drop (pos + 5 + (unitNum u).length)).take
            ((pos + (markerStr u).length + 1) - (pos + 5 + (unitNum u).length)))))).isEmpty
        then segLoop t (plantedHeaders (pos + (markerStr u).length + 1) (u2 :: us2))
        else (unitNum u, stripNumReps (unitNum u) (stripLeadPunct (pyStrip
          ((t.drop (pos + 5 + (unitNum u).length)).take
            ((pos + (markerStr u).length + 1) - (pos + 5 + (unitNum u).length)))))) ::
          segLoop t (plantedHeaders (pos + (markerStr u).length + 1) (u2 :: us2))) = _
      rw [hdd]
      have hcnt : (pos + (markerStr u).length + 1) - (pos + 5 + (unitNum u).length) =
          u.body.length + 2 := by
        rw [markerStr_length]
        omega
      rw [hcnt]
      rw [show renderTail (u2 :: us2) = ' ' :: renderDoc (u2 :: us2) from rfl]
      rw [take_sandwich]
      rw [pyStrip_pad1 u.body hbne (body_head_ok hvu) (body_last_ok hvu)]
      rw [(cleanup_unit u hvu).1]
      rw [hbie]
      have hrec : segLoop t (plantedHeaders (pos + (markerStr u).length + 1) (u2 :: us2)) =
          (u2 :: us2).map (fun x => (unitNum x, x.body)) := by
        apply ih t (pos + (markerStr u).length + 1) (fun x hx => hv x (by simp [hx]))
        · have h1 : t.drop (pos + (markerStr u).length + 1) =
              (t.drop pos).drop ((markerStr u).length + 1) := by
            rw [List.drop_drop]
            congr 1
          rw [h1, hdrop]
          have h2 : renderDoc (u :: u2 :: us2) =
              (markerStr u ++ [' ']) ++ renderDoc (u2 :: us2) := by
            show markerStr u ++ renderTail (u2 :: us2) = _
            rw [renderTail_cons_eq]
            simp
          rw [h2]
          rw [show (markerStr u).length + 1 = (markerStr u ++ [' ']).length from by
            simp only [List.length_append, List.length_cons, List.length_nil]]
          exact List.drop_left _ _
        · rw [hlen, renderDoc_length_cons]
          omega
      rw [hrec]
      rfl

theorem plantedHeaders_map_num :
    ∀ (us : List RoUnit) (pos : Nat),
      (plantedHeaders pos us).map Header.num = us.map unitNum := by
  intro us
  induction us with
  | nil => intro pos; rfl
  | cons u us ih =>
    intro pos
    show unitNum u :: (plantedHeaders (pos + (markerStr u).length + 1) us).map Header.num =
      unitNum u :: us.map unitNum
    rw [ih]

/-- C3.  The spec claims that for every input containing N well-formed
"r.o. X" markers, segmentation returns exactly N blocks whose numbering
paths are the marker numbers in order.  Counterexample: the text
"r.o. 3 r.o. 4 tekst" contains two well-formed markers (the scanner finds
exactly the numbers 3 and 4), yet segmentation returns a single block,
because the content between the two headers strips to the empty string
and the source drops blocks with empty content. -/
theorem c3_counterexample :
    (roFinditer (normalize_text (str "r.o. 3 r.o. 4 tekst"))).map Header.num =
        [str "3", str "4"] ∧
      segment_rechtsoverwegingen (str "r.o. 3 r.o. 4 tekst") =
        [(str "4", str "tekst")] := by
  constructor
  · decide
  · decide

/-- C3 (amended).  On every rendered marker document — each unit printed
as "r.o. ", its numbering path (a first digit group and at most three
further dot-separated digit groups) and a nonempty body, units separated
by single spaces, bodies free of line breaks, of characters the
normalizer rewrites, of the letter r in either case, and not starting
with whitespace, a digit or a punctuation delimiter nor ending in
whitespace — the scanner finds exactly one header per unit with the
unit's numbering path, and segmentation returns exactly one block per
unit, with the unit's numbering path and body, in document order. -/
theorem c3_amended (us : List RoUnit) (hv : ∀ u ∈ us, validUnitB u = true) :
    (roFinditer (renderDoc us)).map Header.num = us.map unitNum ∧
      segment_rechtsoverwegingen (renderDoc us) =
        us.map (fun u => (unitNum u, u.body)) := by
  constructor
  · rw [roFinditer_renderDoc us hv, plantedHeaders_map_num]
  · unfold segment_rechtsoverwegingen
    rw [normalize_text_eq_self (renderDoc_Normalized us hv)]
    rw [collectHeaders_renderDoc us hv]
    exact segLoop_planted us (renderDoc us) 0 hv (by rw [List.drop_zero])
      (by rw [Nat.zero_add])

/-- Witness for C3 (amended): a concrete two-unit document, with a
two-component numbering path on the second unit. -/
theorem c3_amended_witness :
    (∀ u ∈ [RoUnit.mk (str "3") [] (str "Alpha klaagt."),
        RoUnit.mk (str "3") [str "1"] (str "Beta deelt mee.")], validUnitB u = true) ∧
      segment_rechtsoverwegingen
          (renderDoc [RoUnit.mk (str "3") [] (str "Alpha klaagt."),
            RoUnit.mk (str "3") [str "1"] (str "Beta deelt mee.")]) =
        [(str "3", str "Alpha klaagt."), (str "3.1", str "Beta deelt mee.")] :=
  ⟨by decide,
    (c3_amended
      [RoUnit.mk (str "3") [] (str "Alpha klaagt."),
        RoUnit.mk (str "3") [str "1"] (str "Beta deelt mee.")] (by decide)).2⟩

end IRACify
